import Mathlib

/-!
# VoteCast distributed voting service — verification of the specification

A shallow embedding of the Python sources `src/server.py` and `src/client.py`
of the VoteCast-Distributed-System repository, together with proofs that
settle the frozen claims about the specification.

Modelling conventions:
* Python `dict`s become association lists (`List (κ × β)`) with the helpers
  `alookup` (lookup), `upsert` (assignment `d[k] = v`: replaces in place,
  else appends, matching insertion-ordered `dict` semantics) and `rmKey`
  (`d.pop(k)`).
* Python `set`s of client ids become insertion-ordered duplicate-free lists:
  `addSet` is `s.add`, `List.erase` is `s.remove`.
* Machine integers are `Int`/`Nat` (Python integers are unbounded, so no
  wrap-around modelling is needed); wall-clock times and sequence numbers are
  `Int`.
* Code that can raise an exception (`KeyError` on a missing dict key,
  `.split` on `None`, …) returns an extra `Bool` that is `false` when the
  Python code would raise; mutations performed before the raise are kept,
  exactly as in-place mutation behaves in the source.
* Side effects are an explicit list of `Output` values (UDP sends).
* Randomness (`secrets.token_hex`, `uuid.uuid4`) and the clock (`time.time`)
  are passed in as explicit parameters.
-/

namespace VoteCast

/-! ## Association list helpers (Python `dict` semantics) -/

/-- `d.get(k)` / `d[k]` lookup on an insertion-ordered dict. -/
def alookup [DecidableEq κ] : List (κ × β) → κ → Option β
  | [], _ => none
  | (k₀, v) :: t, k => if k₀ = k then some v else alookup t k

/-- `d[k] = v`: replace the value in place if the key exists, else append. -/
def upsert [DecidableEq κ] : List (κ × β) → κ → β → List (κ × β)
  | [], k, v => [(k, v)]
  | (k₀, v₀) :: t, k, v => if k₀ = k then (k₀, v) :: t else (k₀, v₀) :: upsert t k v

/-- `d.pop(k)`: remove the (unique) entry with key `k`. -/
def rmKey [DecidableEq κ] : List (κ × β) → κ → List (κ × β)
  | [], _ => []
  | (k₀, v₀) :: t, k => if k₀ = k then t else (k₀, v₀) :: rmKey t k

/-- `s.add(x)` on an insertion-ordered set. -/
def addSet [DecidableEq κ] (l : List κ) (x : κ) : List κ :=
  if x ∈ l then l else l ++ [x]

@[simp] theorem alookup_nil [DecidableEq κ] (k : κ) :
    alookup ([] : List (κ × β)) k = none := rfl

@[simp] theorem alookup_cons [DecidableEq κ] (k₀ : κ) (v : β) (t : List (κ × β)) (k : κ) :
    alookup ((k₀, v) :: t) k = if k₀ = k then some v else alookup t k := rfl

@[simp] theorem upsert_nil [DecidableEq κ] (k : κ) (v : β) :
    upsert ([] : List (κ × β)) k v = [(k, v)] := rfl

@[simp] theorem upsert_cons [DecidableEq κ] (k₀ : κ) (v₀ : β) (t : List (κ × β)) (k : κ) (v : β) :
    upsert ((k₀, v₀) :: t) k v =
      if k₀ = k then (k₀, v) :: t else (k₀, v₀) :: upsert t k v := rfl

@[simp] theorem rmKey_nil [DecidableEq κ] (k : κ) :
    rmKey ([] : List (κ × β)) k = [] := rfl

@[simp] theorem rmKey_cons [DecidableEq κ] (k₀ : κ) (v₀ : β) (t : List (κ × β)) (k : κ) :
    rmKey ((k₀, v₀) :: t) k =
      if k₀ = k then t else (k₀, v₀) :: rmKey t k := rfl

theorem alookup_upsert_self [DecidableEq κ] (l : List (κ × β)) (k : κ) (v : β) :
    alookup (upsert l k v) k = some v := by
  induction l with
  | nil => simp
  | cons p t ih =>
    obtain ⟨k₀, v₀⟩ := p
    by_cases h : k₀ = k <;> simp [h, ih]

theorem alookup_upsert_ne [DecidableEq κ] (l : List (κ × β)) (k k' : κ) (v : β)
    (h : k ≠ k') : alookup (upsert l k v) k' = alookup l k' := by
  induction l with
  | nil => simp [h]
  | cons p t ih =>
    obtain ⟨k₀, v₀⟩ := p
    by_cases h₀ : k₀ = k
    · subst h₀; simp [h, ih]
    · simp only [upsert_cons, if_neg h₀, alookup_cons, ih]

theorem mem_of_alookup_eq_some [DecidableEq κ] {l : List (κ × β)} {k : κ} {v : β}
    (h : alookup l k = some v) : (k, v) ∈ l := by
  induction l with
  | nil => simp at h
  | cons p t ih =>
    obtain ⟨k₀, v₀⟩ := p
    by_cases h₀ : k₀ = k
    · subst h₀; simp at h; simp [h]
    · simp only [alookup_cons, if_neg h₀] at h
      exact List.mem_cons_of_mem _ (ih h)

theorem rmKey_subset [DecidableEq κ] {l : List (κ × β)} {k : κ} {p : κ × β}
    (h : p ∈ rmKey l k) : p ∈ l := by
  induction l with
  | nil => simp at h
  | cons q t ih =>
    obtain ⟨k₀, v₀⟩ := q
    by_cases h₀ : k₀ = k
    · simp only [rmKey_cons, if_pos h₀] at h
      exact List.mem_cons_of_mem _ h
    · simp only [rmKey_cons, if_neg h₀] at h
      rcases List.mem_cons.mp h with h₁ | h₁
      · exact h₁ ▸ List.mem_cons_self _ _
      · exact List.mem_cons_of_mem _ (ih h₁)

theorem rmKey_length_lt [DecidableEq κ] {l : List (κ × β)} {k : κ} {v : β}
    (h : alookup l k = some v) : (rmKey l k).length < l.length := by
  induction l with
  | nil => simp at h
  | cons q t ih =>
    obtain ⟨k₀, v₀⟩ := q
    by_cases h₀ : k₀ = k
    · simp [h₀]
    · simp only [alookup_cons, if_neg h₀] at h
      simpa [h₀] using ih h

theorem keys_rmKey_sublist [DecidableEq κ] (l : List (κ × β)) (k : κ) :
    ((rmKey l k).map Prod.fst).Sublist (l.map Prod.fst) := by
  induction l with
  | nil => simp
  | cons q t ih =>
    obtain ⟨k₀, v₀⟩ := q
    by_cases h₀ : k₀ = k
    · simp only [rmKey_cons, if_pos h₀, List.map_cons]
      exact (List.sublist_cons_self _ _)
    · simpa [h₀] using ih.cons₂ k₀

theorem mem_rmKey_key_ne [DecidableEq κ] {l : List (κ × β)} {k : κ} {p : κ × β}
    (hnd : (l.map Prod.fst).Nodup) (h : p ∈ rmKey l k) : p.1 ≠ k := by
  induction l with
  | nil => simp at h
  | cons q t ih =>
    obtain ⟨k₀, v₀⟩ := q
    simp only [List.map_cons, List.nodup_cons] at hnd
    by_cases h₀ : k₀ = k
    · subst h₀
      simp only [rmKey_cons, if_pos rfl] at h
      intro hk
      exact hnd.1 (hk ▸ List.mem_map_of_mem Prod.fst h)
    · simp only [rmKey_cons, if_neg h₀] at h
      rcases List.mem_cons.mp h with h₁ | h₁
      · subst h₁; exact h₀
      · exact ih hnd.2 h₁

theorem keys_upsert [DecidableEq κ] (l : List (κ × β)) (k : κ) (v : β) :
    (upsert l k v).map Prod.fst = l.map Prod.fst ∨
      (upsert l k v).map Prod.fst = l.map Prod.fst ++ [k] := by
  induction l with
  | nil => simp
  | cons q t ih =>
    obtain ⟨k₀, v₀⟩ := q
    by_cases h₀ : k₀ = k
    · left; simp [h₀]
    · rcases ih with h | h
      · left; simp [h₀, h]
      · right; simp [h₀, h]

/-! ## JSON-level values

Only the VOTE_ACK envelope needs field-name-level modelling (claim C4 is
about which keys the client puts into the JSON object), so we embed JSON
objects as association lists of string keys. -/

inductive JVal where
  | s (v : String)
  | i (v : Int)
deriving Repr, DecidableEq

/-- `msg.get(k)` on a JSON object. -/
def jget (m : List (String × JVal)) (k : String) : Option JVal :=
  alookup m k

/-- Python truthiness test `not x` on an optional JSON value
(`None`, `""` and `0` are falsy). -/
def jfalsy : Option JVal → Bool
  | none => true
  | some (.s v) => v = ""
  | some (.i v) => v = 0

/-! ## The FIFO multicast envelope

`Server.__fo_multicast` sends `{"S": seq, "sender": self.id, "type": "VOTE",
"vote_id": ..., "group": ..., "topic": ..., "options": ...}`. -/

structure VoteMsg where
  S : Int
  sender : String
  vote_id : String
  group : String
  topic : String
  options : List String
deriving Repr, DecidableEq

/-! ## Client side: receiver FIFO ordering (`Client.__vote`, lines 173–200)

The per-`(group, sender)` receive state: `R[g][q]` (last delivered sequence
number, initialised to `-1`) and the hold-back buffer `hold_back[g][q]`
(a dict keyed by sequence number).  Distinct `(group, sender)` keys never
interact in `Client.__vote`, so we model a single stream. -/

structure FifoState where
  R : Int
  hb : List (Int × VoteMsg)
deriving Repr, DecidableEq

/-- `Client.__fo_deliver`: records `R[g][q] = msg["S"]`. -/
def fo_deliver (st : FifoState) (m : VoteMsg) : FifoState :=
  { st with R := m.S }

/-- The `while (R[g][q] + 1) in hold_back[g][q]` drain loop of
`Client.__vote`: pops the `(R+1)` entry and delivers it, repeatedly.
Returns the final state and the list of drained deliveries in order. -/
def drain (st : FifoState) : FifoState × List VoteMsg :=
  match h : alookup st.hb (st.R + 1) with
  | none => (st, [])
  | some m =>
    let st' : FifoState := { R := m.S, hb := rmKey st.hb (st.R + 1) }
    let r := drain st'
    (r.1, m :: r.2)
termination_by st.hb.length
decreasing_by
  simpa using rmKey_length_lt h

/-- `Client.__vote` (lines 173–198), without the unconditional ack of line
200 (`clientVoteFull` below adds it).  Returns the new state and the list
of messages delivered by this step, in delivery order. -/
def clientVote (st : FifoState) (m : VoteMsg) : FifoState × List VoteMsg :=
  if m.S = st.R + 1 then
    let st₁ := fo_deliver st m
    let r := drain st₁
    (r.1, m :: r.2)
  else if m.S > st.R + 1 then
    ({ st with hb := upsert st.hb m.S m }, [])
  else
    (st, [])

/-- Initial per-(group, sender) state: `R = -1`, empty hold-back. -/
def initFifo : FifoState := ⟨-1, []⟩

/-- Run `Client.__vote` over a trace of received VOTE messages, collecting
every delivered message in order. -/
def runFrom (st : FifoState) : List VoteMsg → FifoState × List VoteMsg
  | [] => (st, [])
  | m :: t =>
    let r₁ := clientVote st m
    let r₂ := runFrom r₁.1 t
    (r₂.1, r₁.2 ++ r₂.2)

def runTrace (ms : List VoteMsg) : FifoState × List VoteMsg :=
  runFrom initFifo ms

/-! ## Client side: the emitted acknowledgement (`Client.__send_fo_ack`)

The dict literal at lines 162–171 contains the key `"id"` twice (with the
same value `self.id`); a Python dict literal keeps the first position and
the last value, so the object has a single `"id"` entry. -/

def sendFoAckMsg (g q : String) (S : Int) (vote cid token : String) :
    List (String × JVal) :=
  [("type", .s "VOTE_ACK"),
   ("group", .s g),
   ("sender", .s q),
   ("seq", .i S),
   ("id", .s cid),
   ("vote", .s vote),
   ("token", .s token)]

/-- `Client.__vote` including the unconditional `__send_fo_ack(g, q, S,
"McDonalds")` of line 200. -/
def clientVoteFull (cid token : String) (st : FifoState) (m : VoteMsg) :
    FifoState × List VoteMsg × List (String × JVal) :=
  let r := clientVote st m
  (r.1, r.2, sendFoAckMsg m.group m.sender m.S "McDonalds" cid token)

/-- The field test at the top of `Server.__vote_ack` (lines 498–504):
`if not vote_id or not group or sender_seq is None: return`.  `true` means
the handler proceeds past the guard. -/
def voteAckAccepts (m : List (String × JVal)) : Bool :=
  !(jfalsy (jget m "vote_id") || jfalsy (jget m "group") || (jget m "S").isNone)

/-- Weak invariant of the per-`(group, sender)` receive state: every
hold-back entry is stored under its own sequence number and strictly
beyond `R`, and keys are unique. -/
def FifoInvW (st : FifoState) : Prop :=
  (∀ p ∈ st.hb, p.2.S = p.1 ∧ st.R < p.1) ∧ (st.hb.map Prod.fst).Nodup

/-- Full invariant: additionally the hold-back holds no `(R + 1)` entry
(the drain loop has run to completion). -/
def FifoInv (st : FifoState) : Prop :=
  FifoInvW st ∧ alookup st.hb (st.R + 1) = none

/-! ## Server-side data model (`Server.__init__`) -/

/-- One entry of `self.clients`: `{"token": ..., "addr": ...}`.  Transport
addresses are kept as opaque strings. -/
structure Session where
  token : String
  addr : String
deriving Repr, DecidableEq

/-- One entry of `self.groups`: `{"owner": ..., "members": {...}}`.
Members are an insertion-ordered duplicate-free list standing for the
Python set. -/
structure Group where
  owner : String
  members : List String
deriving Repr, DecidableEq

/-- A typed VOTE_ACK request as `Server.__vote_ack` reads it: every field
is fetched with `msg.get`, hence optional. -/
structure AckMsg where
  id : Option String
  token : Option String
  vote_id : Option String
  group : Option String
  S : Option Int
  vote : Option String
deriving Repr, DecidableEq

/-- One entry of `self.votes`: the recorded ballots are the raw VOTE_ACK
messages appended by `Server.__vote_ack`. -/
structure Vote where
  group : String
  topic : String
  options : List String
  votes : List AckMsg
deriving Repr, DecidableEq

/-- One entry of `self.fo_pending`, keyed by `(group, seq)`. -/
structure FoEntry where
  pending : List String
  deadline : Int
  msg : VoteMsg
  vote_id : String
deriving Repr, DecidableEq

structure ServerState where
  id : String
  servers : List String
  left : Option String
  right : Option String
  leader : Option String
  is_leader : Bool
  phase : Nat
  pending_replies : Int
  election_in_progress : Bool
  clients : List (String × Session)
  groups : List (String × Group)
  votes : List (String × Vote)
  S : List (String × Int)
  fo_pending : List ((String × Int) × FoEntry)
deriving Repr, DecidableEq

/-! ## Messages the server can emit -/

/-- A typed incoming unicast JSON message, as dispatched by
`Server.__handle_message` on its `"type"` field.  Fields read with
`msg.get` are `Option`s; fields read with `msg[...]` (which would raise
`KeyError` when missing) are plain.  `unknown` stands for any message whose
type string matches no branch. -/
inductive Request where
  | hsElection (id : Option String) (phase : Option Int)
      (direction : Option String) (hop : Option Int)
  | hsReply (id : Option String) (direction : Option String)
  | hsLeader (id : Option String)
  | register (id : Option String)
  | createGroup (id token : Option String) (group : Option String)
  | getGroups (id token : Option String)
  | joinGroup (id token : Option String) (group : Option String)
  | joinedGroups (id token : Option String)
  | leaveGroup (id token : Option String) (group : Option String)
  | startVote (id token : Option String) (group topic : Option String)
      (options : Option (List String)) (timeout : Option Int)
  | voteAck (a : AckMsg)
  | replRegister (id token addr : String)
  | unknown
deriving Repr, DecidableEq

/-- An outgoing JSON message. `req r` is a message with the same shape as
the incoming request `r` (used when the server forwards a message verbatim,
and for the HS probes/replies it creates itself). -/
inductive OutMsg where
  | error (err : String)
  | registerOk (token : String)
  | createGroupOk (group : String)
  | getGroupsOk (groups : List String)
  | joinGroupOk (group : String)
  | joinedGroupsOk (groups : List String)
  | leaveGroupOk (group : String)
  | startVoteOk (group topic : String) (options : List String) (timeout : Int)
  | vote (m : VoteMsg)
  | voteResult (vote_id group topic winner : String)
  | replRegister (id token addr : String)
  | req (r : Request)
deriving Repr, DecidableEq

/-- A single UDP send: destination (a `"host:port"` string or a client
address) and payload. -/
structure Output where
  dest : String
  msg : OutMsg
deriving Repr, DecidableEq

/-! ## Send primitives -/

/-- `Server.__send`: unconditional unicast. -/
def plainSend (dest : String) (m : OutMsg) : List Output :=
  [⟨dest, m⟩]

/-- `Server.__leader_send`: sends only when `self.is_leader`. -/
def leaderSend (st : ServerState) (dest : String) (m : OutMsg) : List Output :=
  if st.is_leader then [⟨dest, m⟩] else []

/-- `Server.__send` to an optional destination (`self.left`/`self.right`
may still be `None`); sending to `None` raises, which the `false` flag
records. -/
def sendToOpt (dest : Option String) (m : OutMsg) : List Output × Bool :=
  match dest with
  | some d => ([⟨d, m⟩], true)
  | none => ([], false)

/-- A loop `for cid in cids: self.__leader_send(self.clients[cid]["addr"], m)`.
The `self.clients[cid]` lookup raises `KeyError` when `cid` is unknown,
aborting the rest of the loop (flag `false`); it is evaluated even when
`__leader_send` then drops the message on a non-leader. -/
def leaderSends (st : ServerState) (cids : List String) (m : OutMsg) :
    List Output × Bool :=
  match cids with
  | [] => ([], true)
  | c :: rest =>
    match alookup st.clients c with
    | none => ([], false)
    | some sess =>
      let r := leaderSends st rest m
      (leaderSend st sess.addr m ++ r.1, r.2)

/-- `Server.send_error`. -/
def sendError (addr err : String) : List Output :=
  plainSend addr (.error err)

/-! ## Authentication (`requires_auth`, `Server.is_authenticated`) -/

/-- `Server.is_authenticated`: `cid in self.clients and
self.clients[cid]["token"] == token`. -/
def is_authenticated (st : ServerState) (mid mtok : Option String) : Bool :=
  match mid with
  | none => false
  | some cid =>
    match alookup st.clients cid with
    | none => false
    | some sess => mtok = some sess.token

/-- The `requires_auth` decorator: run the wrapped handler only when the
message authenticates, else reply `ERROR{AUTH_FAILED}` and change nothing. -/
def withAuth (st : ServerState) (mid mtok : Option String) (addr : String)
    (h : Unit → ServerState × List Output × Bool) :
    ServerState × List Output × Bool :=
  if is_authenticated st mid mtok then h () else (st, sendError addr "AUTH_FAILED", true)

/-! ## Hirschberg–Sinclair election handlers -/

/-- Insertion sort with `≤`, the order `sorted` uses on Python strings. -/
def insertSorted (x : String) : List String → List String
  | [] => [x]
  | y :: t => if x ≤ y then x :: y :: t else y :: insertSorted x t

def sortStr (l : List String) : List String :=
  l.foldr insertSorted []

def idxOfStr (x : String) : List String → Option Nat
  | [] => none
  | y :: t =>
    if y = x then some 0 else (idxOfStr x t).map (· + 1)

/-- `Server.__build_ring`: sort the view, locate `self`, set cyclic
neighbours.  `ordered.index(self.id)` raises when `self.id` is not in the
view (flag `false`). -/
def buildRing (st : ServerState) : ServerState × Bool :=
  let ordered := sortStr st.servers
  match idxOfStr st.id ordered with
  | none => (st, false)
  | some idx =>
    let n := ordered.length
    ({ st with
        left := some (ordered.getD ((idx + n - 1) % n) st.id)
        right := some (ordered.getD ((idx + 1) % n) st.id) }, true)

/-- `Server.__hs_send_neighbors`: set `pending_replies = 2` and probe both
neighbours with hop `2 ** phase`. -/
def hs_send_neighbors (st : ServerState) : ServerState × List Output × Bool :=
  let distance : Int := 2 ^ st.phase
  let st₁ := { st with pending_replies := 2 }
  let probe (dir : String) : OutMsg :=
    .req (.hsElection (some st₁.id) (some (st₁.phase : Int)) (some dir) (some distance))
  let r₁ := sendToOpt st₁.left (probe "LEFT")
  if r₁.2 then
    let r₂ := sendToOpt st₁.right (probe "RIGHT")
    (st₁, r₁.1 ++ r₂.1, r₂.2)
  else
    (st₁, r₁.1, false)

/-- `Server.__hs_start`. -/
def hs_start (st : ServerState) : ServerState × List Output × Bool :=
  if st.election_in_progress then (st, [], true)
  else
    let r₀ := if st.left.isNone || st.right.isNone then buildRing st else (st, true)
    if r₀.2 then
      let st₁ := { r₀.1 with
        election_in_progress := true
        leader := none
        is_leader := false
        phase := 0 }
      hs_send_neighbors st₁
    else
      (r₀.1, [], false)

/-- `Server.__hs_election` (lines 198–236). -/
def hs_election (st : ServerState) (cid : Option String) (phase : Option Int)
    (direction : Option String) (hop : Option Int) :
    ServerState × List Output × Bool :=
  match cid, hop, direction with
  | some c, some h, some d =>
    if d ≠ "LEFT" ∧ d ≠ "RIGHT" then (st, [], true)
    else
      let neighbor := if d = "LEFT" then st.left else st.right
      if c < st.id then
        if st.election_in_progress then (st, [], true) else hs_start st
      else if h > 1 then
        match neighbor with
        | some nb =>
          (st, plainSend nb (.req (.hsElection (some c) phase (some d) (some (h - 1)))), true)
        | none => (st, [], false)
      else
        match neighbor with
        | some nb => (st, plainSend nb (.req (.hsReply (some c) (some d))), true)
        | none => (st, [], false)
  | _, _, _ => (st, [], true)

/-- `Server.__hs_declare_leader`. -/
def hs_declare_leader (st : ServerState) : ServerState × List Output × Bool :=
  let st₁ := { st with
    leader := some st.id
    is_leader := true
    election_in_progress := false }
  let r := sendToOpt st₁.left (.req (.hsLeader (some st₁.id)))
  (st₁, r.1, r.2)

/-- `Server.__hs_reply`. -/
def hs_reply (st : ServerState) (cid : Option String) (direction : Option String) :
    ServerState × List Output × Bool :=
  match cid, direction with
  | some c, some d =>
    if d ≠ "LEFT" ∧ d ≠ "RIGHT" then (st, [], true)
    else
      let neighbor := if d = "LEFT" then st.left else st.right
      if c ≠ st.id then
        match neighbor with
        | some nb => (st, plainSend nb (.req (.hsReply (some c) (some d))), true)
        | none => (st, [], false)
      else
        let st₁ := { st with pending_replies := st.pending_replies - 1 }
        if st₁.pending_replies = 0 then
          let st₂ := { st₁ with phase := st₁.phase + 1 }
          if (2 : Int) ^ st₂.phase ≥ (st₂.servers.length : Int) then
            hs_declare_leader st₂
          else
            hs_send_neighbors st₂
        else (st₁, [], true)
  | _, _ => (st, [], true)

/-- `Server.__hs_leader`. -/
def hs_leader (st : ServerState) (cid : Option String) :
    ServerState × List Output × Bool :=
  match cid with
  | none => (st, [], true)
  | some c =>
    let st₁ := { st with
      leader := some c
      is_leader := decide (c = st.id)
      election_in_progress := false }
    if st₁.left ≠ some c then
      let r := sendToOpt st₁.left (.req (.hsLeader (some c)))
      (st₁, r.1, r.2)
    else (st₁, [], true)

/-! ## Client-facing request handlers -/

/-- `Server.__register` (lines 292–316).  The fresh token from
`secrets.token_hex(16)` is an explicit parameter. -/
def register (st : ServerState) (cid? : Option String) (freshTok addr : String) :
    ServerState × List Output × Bool :=
  match cid? with
  | none => (st, [], true)
  | some cid =>
    let st₁ := { st with clients := upsert st.clients cid ⟨freshTok, addr⟩ }
    let replOuts :=
      if st₁.is_leader then
        (st₁.servers.filter (· ≠ st₁.id)).flatMap
          (fun srv => leaderSend st₁ srv (.replRegister cid freshTok addr))
      else []
    (st₁, replOuts ++ leaderSend st₁ addr (.registerOk freshTok), true)

/-- `Server.__create_group` (lines 318–344), after its auth guard. -/
def create_group (st : ServerState) (cid? name? : Option String) (addr : String) :
    ServerState × List Output × Bool :=
  match cid?, name? with
  | some cid, some name =>
    if (alookup st.groups name).isSome then (st, [], true)
    else
      let st₁ := { st with
        groups := upsert st.groups name ⟨cid, [cid]⟩
        S := upsert st.S name 0 }
      (st₁, leaderSend st₁ addr (.createGroupOk name), true)
  | _, _ => (st, [], true)

/-- `Server.__get_groups`, after its auth guard. -/
def get_groups (st : ServerState) (addr : String) :
    ServerState × List Output × Bool :=
  (st, leaderSend st addr (.getGroupsOk (st.groups.map Prod.fst)), true)

/-- `Server.__join_group`, after its auth guard. -/
def join_group (st : ServerState) (cid? name? : Option String) (addr : String) :
    ServerState × List Output × Bool :=
  match cid?, name? with
  | some cid, some name =>
    match alookup st.groups name with
    | none => (st, [], true)
    | some grp =>
      let st₁ := { st with
        groups := upsert st.groups name { grp with members := addSet grp.members cid } }
      (st₁, leaderSend st₁ addr (.joinGroupOk name), true)
  | _, _ => (st, [], true)

/-- `Server.__joined_groups`, after its auth guard. -/
def joined_groups (st : ServerState) (cid? : Option String) (addr : String) :
    ServerState × List Output × Bool :=
  match cid? with
  | none => (st, [], true)
  | some cid =>
    let gs := (st.groups.filter (fun p => p.2.members.contains cid)).map Prod.fst
    (st, leaderSend st addr (.joinedGroupsOk gs), true)

/-- `Server.__leave_group`, after its auth guard. -/
def leave_group (st : ServerState) (cid? name? : Option String) (addr : String) :
    ServerState × List Output × Bool :=
  match cid?, name? with
  | some cid, some name =>
    match alookup st.groups name with
    | none => (st, [], true)
    | some grp =>
      if cid ∈ grp.members then
        let st₁ := { st with
          groups := upsert st.groups name { grp with members := grp.members.erase cid } }
        (st₁, leaderSend st₁ addr (.leaveGroupOk name), true)
      else (st, [], true)
  | _, _ => (st, [], true)

/-! ## FIFO reliable multicast: leader side -/

/-- `Server.__fo_multicast` (lines 406–436).  `payload` is the VOTE payload
built in `__start_vote`; `now` is `time.time()`.  `self.S[group]` and
`self.groups[group]` raise when missing (flag `false`, nothing mutated);
a `KeyError` in the send loop keeps the already-performed mutations. -/
def fo_multicast (st : ServerState) (group vid topic : String)
    (options : List String) (timeout now : Int) :
    ServerState × List Output × Bool :=
  match alookup st.S group with
  | none => (st, [], false)
  | some seq =>
    match alookup st.groups group with
    | none => (st, [], false)
    | some grp =>
      let msg : VoteMsg :=
        { S := seq, sender := st.id, vote_id := vid
          group := group, topic := topic, options := options }
      let pending := grp.members
      let st₁ := { st with
        fo_pending := upsert st.fo_pending (group, seq)
          { pending := grp.members, deadline := now + timeout
            msg := msg, vote_id := vid } }
      let st₂ := { st₁ with S := upsert st₁.S group (seq + 1) }
      let r := leaderSends st₂ pending (.vote msg)
      (st₂, r.1, r.2)

/-- `Server.__start_vote` (lines 439–494), after its auth guard.  The fresh
vote id from `uuid.uuid4()` is the parameter `freshVid`. -/
def start_vote (st : ServerState) (cid? name? topic? : Option String)
    (options? : Option (List String)) (timeout? : Option Int)
    (addr freshVid : String) (now : Int) :
    ServerState × List Output × Bool :=
  match cid?, options?, timeout?, topic?, name? with
  | some cid, some options, some timeout, some topic, some name =>
    match alookup st.groups name with
    | none => (st, [], true)
    | some grp =>
      if cid ∉ grp.members then (st, [], true)
      else
        let outs₀ := leaderSend st addr (.startVoteOk name topic options timeout)
        let st₁ := { st with
          votes := upsert st.votes freshVid ⟨name, topic, options, []⟩ }
        let r := fo_multicast st₁ name freshVid topic options timeout now
        (r.1, outs₀ ++ r.2.1, r.2.2)
  | _, _, _, _, _ => (st, [], true)

/-- `Server.__vote_ack` (lines 496–519), after its auth guard.  On
`self.votes[vote_id]` missing, the `KeyError` leaves the already-performed
in-place removal from the pending set behind (flag `false`). -/
def vote_ack (st : ServerState) (a : AckMsg) :
    ServerState × List Output × Bool :=
  match a.vote_id, a.group, a.S with
  | some vid, some g, some s =>
    if vid = "" ∨ g = "" then (st, [], true)
    else
      match alookup st.fo_pending (g, s) with
      | none => (st, [], true)
      | some entry =>
        let entry' :=
          match a.id with
          | some sid =>
            if sid ∈ entry.pending then { entry with pending := entry.pending.erase sid }
            else entry
          | none => entry
        let st₁ := { st with fo_pending := upsert st.fo_pending (g, s) entry' }
        match alookup st₁.votes vid with
        | none => (st₁, [], false)
        | some v =>
          ({ st₁ with votes := upsert st₁.votes vid { v with votes := v.votes ++ [a] } },
           [], true)
  | _, _, _ => (st, [], true)

/-! ## Vote finalization (`Server.__finalize_vote`, lines 586–613) -/

/-- The sentinel the source assigns when no ballots were cast
(`winner = "No votes, no winner"`), the spec's `NO_WINNER` marker. -/
def NO_WINNER : String := "No votes, no winner"

/-- One step of the counting loop: `vote_counts[choice] += 1` on a
`defaultdict(int)`, which keeps insertion order. -/
def bump : List (String × Nat) → String → List (String × Nat)
  | [], c => [(c, 1)]
  | (k, n) :: t, c => if k = c then (k, n + 1) :: t else (k, n) :: bump t c

/-- The `vote_counts` dict after the counting loop. -/
def countsOf (cs : List String) : List (String × Nat) :=
  cs.foldl bump []

/-- CPython `max(iterable, key=f)`: scan keeping the current best,
replacing it only on a strictly greater key value — so ties keep the
earlier element. -/
def maxScan (best : String) (bestN : Nat) : List (String × Nat) → String
  | [] => best
  | (k, v) :: t => if bestN < v then maxScan k v t else maxScan best bestN t

/-- `max(vote_counts, key=vote_counts.get)` (`max` on an empty dict would
raise; the source guards with `len(vote["votes"]) > 0`). -/
def maxByFirst : List (String × Nat) → String
  | [] => NO_WINNER
  | (k, v) :: t => maxScan k v t

/-- The winner computation of `Server.__finalize_vote` on the list of cast
choices (`vote_entry["vote"]` of each recorded ballot, in order). -/
def selectWinner (cs : List String) : String :=
  if cs.isEmpty then NO_WINNER else maxByFirst (countsOf cs)

/-- The `"vote"` field of each recorded ballot; `vote_entry["vote"]` raises
when a recorded ack lacks the key, which `none` records. -/
def ballotChoices (l : List AckMsg) : Option (List String) :=
  l.mapM (·.vote)

/-- `Server.__finalize_vote`. -/
def finalize_vote (st : ServerState) (vid : String) :
    ServerState × List Output × Bool :=
  match alookup st.votes vid with
  | none => (st, [], true)
  | some v =>
    match ballotChoices v.votes with
    | none => (st, [], false)
    | some cs =>
      let winner := selectWinner cs
      match alookup st.groups v.group with
      | none => (st, [], false)
      | some grp =>
        let r := leaderSends st grp.members (.voteResult vid v.group v.topic winner)
        (st, r.1, r.2)

/-! ## The retransmission loop (`Server.__fo_retransmit_loop`, lines 615–640) -/

/-- The first pass of one loop iteration: collect the finished keys and
re-unicast every unfinished entry to its remaining pending members.  An
entry is finished when `now > deadline` or its pending set is empty. -/
def retransPass (st : ServerState) (now : Int) :
    List ((String × Int) × FoEntry) → List (String × Int) × List Output × Bool
  | [] => ([], [], true)
  | (k, e) :: t =>
    if now > e.deadline ∨ e.pending.isEmpty then
      let r := retransPass st now t
      (k :: r.1, r.2.1, r.2.2)
    else
      let s := leaderSends st e.pending (.vote e.msg)
      if s.2 then
        let r := retransPass st now t
        (r.1, s.1 ++ r.2.1, r.2.2)
      else ([], s.1, false)

/-- The second pass: pop every finished key and, when the entry carries a
(truthy) vote id, finalize that vote. -/
def popFinished (st : ServerState) : List (String × Int) →
    ServerState × List Output × Bool
  | [] => (st, [], true)
  | k :: t =>
    match alookup st.fo_pending k with
    | none => (st, [], false)
    | some entry =>
      let st₁ := { st with fo_pending := rmKey st.fo_pending k }
      let r₁ := if entry.vote_id ≠ "" then finalize_vote st₁ entry.vote_id
                else (st₁, [], true)
      if r₁.2.2 then
        let r₂ := popFinished r₁.1 t
        (r₂.1, r₁.2.1 ++ r₂.2.1, r₂.2.2)
      else (r₁.1, r₁.2.1, false)

/-- One iteration of `Server.__fo_retransmit_loop`'s body at time `now`. -/
def fo_retransmit_step (st : ServerState) (now : Int) :
    ServerState × List Output × Bool :=
  let p := retransPass st now st.fo_pending
  if p.2.2 then
    let q := popFinished st p.1
    (q.1, p.2.1 ++ q.2.1, q.2.2)
  else (st, p.2.1, false)

/-! ## The dispatcher (`Server.__handle_message`, lines 521–571) -/

/-- The `"type"` string of a typed request. -/
def reqType : Request → String
  | .hsElection .. => "HS_ELECTION"
  | .hsReply .. => "HS_REPLY"
  | .hsLeader .. => "HS_LEADER"
  | .register .. => "REGISTER"
  | .createGroup .. => "CREATE_GROUP"
  | .getGroups .. => "GET_GROUPS"
  | .joinGroup .. => "JOIN_GROUP"
  | .joinedGroups .. => "JOINED_GROUPS"
  | .leaveGroup .. => "LEAVE_GROUP"
  | .startVote .. => "START_VOTE"
  | .voteAck .. => "VOTE_ACK"
  | .replRegister .. => "REPL_REGISTER"
  | .unknown => "UNKNOWN"

/-- `Server.__handle_message`: dispatch, then — unless an exception was
raised — the leader forwards every request other than `HS_*` and
`REGISTER` to all other servers. -/
def handleMessage (st : ServerState) (req : Request) (addr freshTok freshVid : String)
    (now : Int) : ServerState × List Output × Bool :=
  let r : ServerState × List Output × Bool :=
    match req with
    | .hsElection cid phase dir hop => hs_election st cid phase dir hop
    | .hsReply cid dir => hs_reply st cid dir
    | .hsLeader cid => hs_leader st cid
    | .register cid => register st cid freshTok addr
    | .createGroup mid mtok g =>
      withAuth st mid mtok addr (fun _ => create_group st mid g addr)
    | .getGroups mid mtok =>
      withAuth st mid mtok addr (fun _ => get_groups st addr)
    | .joinGroup mid mtok g =>
      withAuth st mid mtok addr (fun _ => join_group st mid g addr)
    | .joinedGroups mid mtok =>
      withAuth st mid mtok addr (fun _ => joined_groups st mid addr)
    | .leaveGroup mid mtok g =>
      withAuth st mid mtok addr (fun _ => leave_group st mid g addr)
    | .startVote mid mtok g topic opts tmo =>
      withAuth st mid mtok addr (fun _ => start_vote st mid g topic opts tmo addr freshVid now)
    | .voteAck a =>
      withAuth st a.id a.token addr (fun _ => vote_ack st a)
    | .replRegister cid tok caddr =>
      ({ st with clients := upsert st.clients cid ⟨tok, caddr⟩ }, [], true)
    | .unknown => (st, [], true)
  if r.2.2 then
    let st' := r.1
    if st'.is_leader ∧ reqType req ∉ ["HS_ELECTION", "HS_REPLY", "HS_LEADER", "REGISTER"] then
      (st', r.2.1 ++ (st'.servers.filter (· ≠ st'.id)).flatMap
        (fun srv => leaderSend st' srv (.req req)), true)
    else (st', r.2.1, true)
  else (r.1, r.2.1, false)

/-! ## Statement helpers -/

/-- The `"id"` field a request authenticates with. -/
def reqId : Request → Option String
  | .register mid => mid
  | .createGroup mid _ _ => mid
  | .getGroups mid _ => mid
  | .joinGroup mid _ _ => mid
  | .joinedGroups mid _ => mid
  | .leaveGroup mid _ _ => mid
  | .startVote mid _ _ _ _ _ => mid
  | .voteAck a => a.id
  | _ => none

/-- The `"token"` field a request authenticates with. -/
def reqToken : Request → Option String
  | .createGroup _ mtok _ => mtok
  | .getGroups _ mtok => mtok
  | .joinGroup _ mtok _ => mtok
  | .joinedGroups _ mtok => mtok
  | .leaveGroup _ mtok _ => mtok
  | .startVote _ mtok _ _ _ _ => mtok
  | .voteAck a => a.token
  | _ => none

/-- The request kinds guarded by `requires_auth`. -/
def isAuthReq (r : Request) : Bool :=
  reqType r ∈ ["CREATE_GROUP", "GET_GROUPS", "JOIN_GROUP", "JOINED_GROUPS",
               "LEAVE_GROUP", "START_VOTE", "VOTE_ACK"]

/-- `self.clients[c]["addr"]`, as a total statement helper. -/
def clientAddr (st : ServerState) (c : String) : String :=
  ((alookup st.clients c).map Session.addr).getD ""

/-- The keys of `vote_counts` in insertion order: the distinct cast choices
in order of first occurrence. -/
def firstOccs : List String → List String
  | [] => []
  | c :: cs => c :: (firstOccs cs).filter (· ≠ c)

/-- Modelled from the spec's words on finalization (for comparison with the
source's `selectWinner`): « winner = option with the highest count; tie
broken by first-appearing option in the vote's `options` list; if zero
votes, winner = special marker `NO_WINNER` ». -/
def specWinner (options cs : List String) : String :=
  if cs.isEmpty then NO_WINNER
  else
    match options.find? (fun o => decide (∀ c ∈ cs, cs.count c ≤ cs.count o)) with
    | some o => o
    | none => NO_WINNER

/-- A base server state for concrete instances. -/
def baseState : ServerState :=
  { id := "10.0.0.1:5001"
    servers := ["10.0.0.1:5001"]
    left := none
    right := none
    leader := some "10.0.0.1:5001"
    is_leader := true
    phase := 0
    pending_replies := 0
    election_in_progress := false
    clients := []
    groups := []
    votes := []
    S := []
    fo_pending := [] }

/-! ## Concrete instances used by counterexamples and witnesses -/

/-- The VOTE envelope of the concrete pending entry used below. -/
def msgC3 : VoteMsg :=
  ⟨0, "10.0.0.1:5001", "v1", "g", "topic", ["a", "b"]⟩

/-- A leader state with one registered client `X`, one group `g`, one live
vote `v1` and its pending FIFO entry at `(g, 0)`. -/
def stC3 : ServerState :=
  { baseState with
    clients := [("X", ⟨"tX", "aX"⟩)]
    groups := [("g", ⟨"X", ["X"]⟩)]
    votes := [("v1", ⟨"g", "topic", ["a", "b"], []⟩)]
    S := [("g", 1)]
    fo_pending := [(("g", 0), ⟨["X"], 100, msgC3, "v1"⟩)] }

/-- A well-formed VOTE_ACK from client `X` for vote `v1`, `(g, 0)`. -/
def ackC3 : AckMsg :=
  ⟨some "X", some "tX", some "v1", some "g", some 0, some "a"⟩

/-- A state in which client `c` already has a session with token `t0` and
address `a0`. -/
def stC9 : ServerState :=
  { baseState with clients := [("c", ⟨"t0", "a0"⟩)] }

/-- State for the C6 witness: leader with client `X`, group `g`,
sequencer `S[g] = 0`. -/
def stC6 : ServerState :=
  { baseState with
    clients := [("X", ⟨"tX", "aX"⟩)]
    groups := [("g", ⟨"X", ["X"]⟩)]
    S := [("g", 0)] }

/-- State for the C8 witness: node `b` in a three-node ring with both
neighbours known. -/
def stC8 : ServerState :=
  { baseState with
    id := "b"
    servers := ["a", "b", "c"]
    left := some "a"
    right := some "c"
    is_leader := false
    leader := none
    election_in_progress := true }

/-- The VOTE envelope of the concrete pending entry used for C7. -/
def msgC7 : VoteMsg := ⟨0, "10.0.0.1:5001", "v7", "g", "top", ["a"]⟩

/-- A leader state with one pending entry `(g, 0)` whose deadline is 10 and
whose pending set still contains the registered client `X`. -/
def stC7 : ServerState :=
  { baseState with
    clients := [("X", ⟨"tX", "aX"⟩)]
    groups := [("g", ⟨"X", ["X"]⟩)]
    votes := [("v7", ⟨"g", "top", ["a"], []⟩)]
    S := [("g", 1)]
    fo_pending := [(("g", 0), ⟨["X"], 10, msgC7, "v7"⟩)] }

/-- C1 counterexample concrete state: a leader with one member `X`, a live
vote `v` with options `["a", "b"]` whose recorded ballots are `b` then `a`
(a tie between `a` and `b`). -/
def stC1 : ServerState :=
  { baseState with
    clients := [("X", ⟨"tX", "aX"⟩)]
    groups := [("g", ⟨"X", ["X"]⟩)]
    votes := [("v", ⟨"g", "top", ["a", "b"],
      [⟨some "Y", some "tY", some "v", some "g", some 0, some "b"⟩,
       ⟨some "X", some "tX", some "v", some "g", some 0, some "a"⟩]⟩)] }


/-! # Theorems -/

/-! ## Frame lemmas: no handler other than REGISTER/REPL_REGISTER touches
`self.clients` -/

@[simp] theorem buildRing_clients (st : ServerState) :
    (buildRing st).1.clients = st.clients := by
  simp only [buildRing]
  split <;> rfl

@[simp] theorem hs_send_neighbors_clients (st : ServerState) :
    (hs_send_neighbors st).1.clients = st.clients := by
  simp only [hs_send_neighbors]
  split <;> rfl

@[simp] theorem hs_start_clients (st : ServerState) :
    (hs_start st).1.clients = st.clients := by
  simp only [hs_start]
  repeat' split
  all_goals simp

@[simp] theorem hs_election_clients (st : ServerState) (cid : Option String)
    (phase : Option Int) (dir : Option String) (hop : Option Int) :
    (hs_election st cid phase dir hop).1.clients = st.clients := by
  simp only [hs_election]
  repeat' split
  all_goals simp

@[simp] theorem hs_declare_leader_clients (st : ServerState) :
    (hs_declare_leader st).1.clients = st.clients := by
  simp only [hs_declare_leader, sendToOpt]
  repeat' split
  all_goals simp

@[simp] theorem hs_reply_clients (st : ServerState) (cid dir : Option String) :
    (hs_reply st cid dir).1.clients = st.clients := by
  simp only [hs_reply]
  repeat' split
  all_goals simp

@[simp] theorem hs_leader_clients (st : ServerState) (cid : Option String) :
    (hs_leader st cid).1.clients = st.clients := by
  simp only [hs_leader, sendToOpt]
  repeat' split
  all_goals simp

@[simp] theorem create_group_clients (st : ServerState) (a b : Option String) (addr : String) :
    (create_group st a b addr).1.clients = st.clients := by
  simp only [create_group]
  split
  · split <;> rfl
  · rfl

@[simp] theorem get_groups_clients (st : ServerState) (addr : String) :
    (get_groups st addr).1.clients = st.clients := rfl

@[simp] theorem join_group_clients (st : ServerState) (a b : Option String) (addr : String) :
    (join_group st a b addr).1.clients = st.clients := by
  simp only [join_group]
  split
  · split <;> rfl
  · rfl

@[simp] theorem joined_groups_clients (st : ServerState) (a : Option String) (addr : String) :
    (joined_groups st a addr).1.clients = st.clients := by
  simp only [joined_groups]
  split <;> rfl

@[simp] theorem leave_group_clients (st : ServerState) (a b : Option String) (addr : String) :
    (leave_group st a b addr).1.clients = st.clients := by
  simp only [leave_group]
  split
  · split
    · rfl
    · split <;> rfl
  · rfl

@[simp] theorem fo_multicast_clients (st : ServerState) (g vid topic : String)
    (options : List String) (timeout now : Int) :
    (fo_multicast st g vid topic options timeout now).1.clients = st.clients := by
  simp only [fo_multicast]
  split
  · rfl
  · split <;> rfl

@[simp] theorem start_vote_clients (st : ServerState) (a b c : Option String)
    (d : Option (List String)) (e : Option Int) (addr fv : String) (now : Int) :
    (start_vote st a b c d e addr fv now).1.clients = st.clients := by
  simp only [start_vote]
  split
  · split
    · rfl
    · split
      · rfl
      · rw [fo_multicast_clients]
  · rfl

@[simp] theorem vote_ack_clients (st : ServerState) (a : AckMsg) :
    (vote_ack st a).1.clients = st.clients := by
  simp only [vote_ack]
  split
  · split
    · rfl
    · split
      · rfl
      · split <;> rfl
  · rfl

@[simp] theorem withAuth_clients (st : ServerState) (mid mtok : Option String)
    (addr : String) (h : Unit → ServerState × List Output × Bool)
    (hh : (h ()).1.clients = st.clients) :
    (withAuth st mid mtok addr h).1.clients = st.clients := by
  simp only [withAuth]
  split
  · exact hh
  · rfl

/-! ## C4: the client's VOTE_ACK does not carry the fields the leader's
handler requires -/

/-- C4: for every VOTE message a client handles, the acknowledgement emitted
by `Client.__send_fo_ack` has no `vote_id` field and no `S` field (the
sequence number travels under the key `"seq"` instead), so the guard of
`Server.__vote_ack` rejects it as missing `vote_id`, `group`, or `S` —
refuting the claim that the ack carries exactly the fields the leader
consumes and is accepted. -/
theorem claim_C4_ack_rejected (st : FifoState) (m : VoteMsg) (cid token : String) :
    (clientVoteFull cid token st m).2.2 =
      sendFoAckMsg m.group m.sender m.S "McDonalds" cid token ∧
    jget (clientVoteFull cid token st m).2.2 "vote_id" = none ∧
    jget (clientVoteFull cid token st m).2.2 "S" = none ∧
    jget (clientVoteFull cid token st m).2.2 "seq" = some (.i m.S) ∧
    voteAckAccepts (clientVoteFull cid token st m).2.2 = false := by
  refine ⟨rfl, ?_, ?_, ?_, ?_⟩ <;>
    simp [clientVoteFull, sendFoAckMsg, jget, alookup, voteAckAccepts, jfalsy]

/-! ## C3: duplicate VOTE_ACK handling is not idempotent -/

/-- C3: processing the same VOTE_ACK twice is *not* idempotent on the vote's
recorded ballot list: `Server.__vote_ack` appends the ack unconditionally,
so the second processing leaves the pending set unchanged but duplicates
the ballot — the code does not deduplicate by `(vote_id, voter)` as the
spec requires. -/
theorem claim_C3_duplicate_ack_appends_again :
    (alookup (vote_ack stC3 ackC3).1.votes "v1").map Vote.votes = some [ackC3] ∧
    (alookup (vote_ack (vote_ack stC3 ackC3).1 ackC3).1.votes "v1").map Vote.votes =
      some [ackC3, ackC3] ∧
    (vote_ack (vote_ack stC3 ackC3).1 ackC3).1.fo_pending =
      (vote_ack stC3 ackC3).1.fo_pending ∧
    [ackC3, ackC3] ≠ [ackC3] := by decide

/-! ## C9: sessions are overwritten by a repeated REGISTER -/

/-- C9 counterexample: a second `REGISTER{id: c}` arriving from address
`a1` (fresh token `t1`) overwrites the stored session, so the claim that a
session is never updated after creation is false. -/
theorem claim_C9_reregister_overwrites :
    alookup stC9.clients "c" = some ⟨"t0", "a0"⟩ ∧
    (handleMessage stC9 (.register (some "c")) "a1" "t1" "fv" 0).1.clients =
      [("c", ⟨"t1", "a1"⟩)] ∧
    (⟨"t1", "a1"⟩ : Session) ≠ ⟨"t0", "a0"⟩ := by decide

/-- C9 amended: sessions are written only by REGISTER and REPL_REGISTER —
every other request kind leaves the client table unchanged — and a
(repeated) REGISTER overwrites the session with the freshly generated
token and the sender's address. -/
theorem claim_C9_amended (st : ServerState) (req : Request) (addr ft fv : String)
    (now : Int) :
    (reqType req ≠ "REGISTER" → reqType req ≠ "REPL_REGISTER" →
      (handleMessage st req addr ft fv now).1.clients = st.clients) ∧
    (∀ cid, req = .register (some cid) →
      (handleMessage st req addr ft fv now).1.clients = upsert st.clients cid ⟨ft, addr⟩) := by
  constructor
  · intro h₁ h₂
    cases req <;>
      first
        | exact absurd rfl h₁
        | exact absurd rfl h₂
        | (simp only [handleMessage, withAuth]
           repeat' split
           all_goals simp)
  · intro cid hreq
    subst hreq
    simp only [handleMessage, register]
    repeat' split
    all_goals simp

/-- Witness for C9 amended, at a concrete non-REGISTER request and a
concrete REGISTER. -/
theorem claim_C9_amended_witness :
    (handleMessage stC9 (.getGroups (some "c") (some "t0")) "a" "ft" "fv" 0).1.clients =
      stC9.clients ∧
    (handleMessage stC9 (.register (some "c")) "a1" "t1" "fv" 0).1.clients =
      upsert stC9.clients "c" ⟨"t1", "a1"⟩ :=
  ⟨(claim_C9_amended stC9 (.getGroups (some "c") (some "t0")) "a" "ft" "fv" 0).1
      (by decide) (by decide),
   (claim_C9_amended stC9 (.register (some "c")) "a1" "t1" "fv" 0).2 "c" rfl⟩

/-! ## C5: authentication failure replies AUTH_FAILED and changes nothing -/

/-- C5: for every request kind guarded by `requires_auth` (CREATE_GROUP,
GET_GROUPS, JOIN_GROUP, JOINED_GROUPS, LEAVE_GROUP, START_VOTE, VOTE_ACK)
and every message whose `(id, token)` does not authenticate, the server
replies `ERROR{AUTH_FAILED}` to the requester and its state is unchanged. -/
theorem claim_C5_auth_failed (st : ServerState) (req : Request) (addr ft fv : String)
    (now : Int) (hk : isAuthReq req = true)
    (hauth : is_authenticated st (reqId req) (reqToken req) = false) :
    (handleMessage st req addr ft fv now).1 = st ∧
    (handleMessage st req addr ft fv now).2.1.head? =
      some ⟨addr, .error "AUTH_FAILED"⟩ := by
  cases req with
  | hsElection a b c d => exact absurd hk (by simp [isAuthReq, reqType])
  | hsReply a b => exact absurd hk (by simp [isAuthReq, reqType])
  | hsLeader a => exact absurd hk (by simp [isAuthReq, reqType])
  | register a => exact absurd hk (by simp [isAuthReq, reqType])
  | replRegister a b c => exact absurd hk (by simp [isAuthReq, reqType])
  | unknown => exact absurd hk (by simp [isAuthReq, reqType])
  | createGroup mid mtok g =>
    simp only [reqId, reqToken] at hauth
    refine ⟨?_, ?_⟩ <;>
      (simp [handleMessage, withAuth, hauth, sendError, plainSend]
       repeat' split
       all_goals simp)
  | getGroups mid mtok =>
    simp only [reqId, reqToken] at hauth
    refine ⟨?_, ?_⟩ <;>
      (simp [handleMessage, withAuth, hauth, sendError, plainSend]
       repeat' split
       all_goals simp)
  | joinGroup mid mtok g =>
    simp only [reqId, reqToken] at hauth
    refine ⟨?_, ?_⟩ <;>
      (simp [handleMessage, withAuth, hauth, sendError, plainSend]
       repeat' split
       all_goals simp)
  | joinedGroups mid mtok =>
    simp only [reqId, reqToken] at hauth
    refine ⟨?_, ?_⟩ <;>
      (simp [handleMessage, withAuth, hauth, sendError, plainSend]
       repeat' split
       all_goals simp)
  | leaveGroup mid mtok g =>
    simp only [reqId, reqToken] at hauth
    refine ⟨?_, ?_⟩ <;>
      (simp [handleMessage, withAuth, hauth, sendError, plainSend]
       repeat' split
       all_goals simp)
  | startVote mid mtok g t o tm =>
    simp only [reqId, reqToken] at hauth
    refine ⟨?_, ?_⟩ <;>
      (simp [handleMessage, withAuth, hauth, sendError, plainSend]
       repeat' split
       all_goals simp)
  | voteAck a =>
    simp only [reqId, reqToken] at hauth
    refine ⟨?_, ?_⟩ <;>
      (simp [handleMessage, withAuth, hauth, sendError, plainSend]
       repeat' split
       all_goals simp)

/-- Witness for C5: a CREATE_GROUP with an unknown id on the base state. -/
theorem claim_C5_auth_failed_witness :
    isAuthReq (.createGroup (some "c") (some "t") (some "g")) = true ∧
    (handleMessage baseState (.createGroup (some "c") (some "t") (some "g"))
        "a" "ft" "fv" 0).1 = baseState :=
  ⟨by decide,
   (claim_C5_auth_failed baseState (.createGroup (some "c") (some "t") (some "g"))
      "a" "ft" "fv" 0 (by decide) (by decide)).1⟩

/-! ## C10: followers apply mutations but stay silent -/

/-- C10: a non-leader server processing a valid, authenticated CREATE_GROUP
or JOIN_GROUP applies exactly the state mutation the leader would (its
resulting state is the leader's resulting state with the leader flag
cleared) while emitting no output at all, because every client-facing reply
goes through the leader-guarded send. -/
theorem claim_C10_follower_mutates_silently (st : ServerState) (addr ft fv : String)
    (now : Int) (cid tok g : String) (hL : st.is_leader = true)
    (hauth : is_authenticated st (some cid) (some tok) = true) :
    ((handleMessage { st with is_leader := false }
        (.createGroup (some cid) (some tok) (some g)) addr ft fv now).1 =
      { (handleMessage st (.createGroup (some cid) (some tok) (some g))
          addr ft fv now).1 with is_leader := false } ∧
     (handleMessage { st with is_leader := false }
        (.createGroup (some cid) (some tok) (some g)) addr ft fv now).2.1 = []) ∧
    ((handleMessage { st with is_leader := false }
        (.joinGroup (some cid) (some tok) (some g)) addr ft fv now).1 =
      { (handleMessage st (.joinGroup (some cid) (some tok) (some g))
          addr ft fv now).1 with is_leader := false } ∧
     (handleMessage { st with is_leader := false }
        (.joinGroup (some cid) (some tok) (some g)) addr ft fv now).2.1 = []) := by
  have hauth' : is_authenticated { st with is_leader := false } (some cid) (some tok) = true := hauth
  refine ⟨⟨?_, ?_⟩, ⟨?_, ?_⟩⟩ <;>
    (simp [handleMessage, withAuth, hauth, hauth', create_group, join_group,
       leaderSend, hL]
     repeat' split
     all_goals simp_all)

/-- Witness for C10: a concrete authenticated CREATE_GROUP on a leader
state with one registered client. -/
theorem claim_C10_witness :
    (handleMessage { baseState with clients := [("c", ⟨"t", "ac"⟩)], is_leader := false }
        (.createGroup (some "c") (some "t") (some "g")) "ac" "ft" "fv" 0).2.1 = [] :=
  (claim_C10_follower_mutates_silently
      { baseState with clients := [("c", ⟨"t", "ac"⟩)] } "ac" "ft" "fv" 0 "c" "t" "g"
      (by decide) (by decide)).1.2

/-! ## C6: the leader-side FIFO multicast -/

theorem leaderSends_all_found (st : ServerState) (cids : List String) (m : OutMsg)
    (hL : st.is_leader = true)
    (hc : ∀ c ∈ cids, (alookup st.clients c).isSome) :
    leaderSends st cids m = (cids.map (fun c => ⟨clientAddr st c, m⟩), true) := by
  induction cids with
  | nil => rfl
  | cons c t ih =>
    obtain ⟨sess, hsess⟩ := Option.isSome_iff_exists.mp (hc c (by simp))
    simp [leaderSends, hsess, leaderSend, hL, clientAddr,
      ih (fun x hx => hc x (List.mem_cons_of_mem _ hx))]

/-- C6: `Server.__fo_multicast` assigns `seq = S[g]`, then increments
`S[g]` by exactly one (so a second multicast to the same group is recorded
under the consecutive sequence number `seq + 1`), records the pending entry
at key `(g, seq)` holding the member snapshot, deadline `now + timeout`,
the envelope and the vote id, and unicasts the envelope to every
snapshotted recipient's address. -/
theorem claim_C6_fo_multicast (st : ServerState) (g vid topic : String)
    (opts : List String) (timeout now seq : Int) (grp : Group)
    (hS : alookup st.S g = some seq) (hG : alookup st.groups g = some grp)
    (hL : st.is_leader = true)
    (hc : ∀ c ∈ grp.members, (alookup st.clients c).isSome) :
    (fo_multicast st g vid topic opts timeout now).1.S = upsert st.S g (seq + 1) ∧
    alookup (fo_multicast st g vid topic opts timeout now).1.S g = some (seq + 1) ∧
    (fo_multicast st g vid topic opts timeout now).1.fo_pending =
      upsert st.fo_pending (g, seq)
        ⟨grp.members, now + timeout, ⟨seq, st.id, vid, g, topic, opts⟩, vid⟩ ∧
    (fo_multicast st g vid topic opts timeout now).2.1 =
      grp.members.map
        (fun c => ⟨clientAddr st c, .vote ⟨seq, st.id, vid, g, topic, opts⟩⟩) ∧
    (∀ vid₂ topic₂ : String, ∀ opts₂ : List String, ∀ t₂ n₂ : Int,
      alookup (fo_multicast (fo_multicast st g vid topic opts timeout now).1
          g vid₂ topic₂ opts₂ t₂ n₂).1.fo_pending (g, seq + 1) =
        some ⟨grp.members, n₂ + t₂, ⟨seq + 1, st.id, vid₂, g, topic₂, opts₂⟩, vid₂⟩) := by
  have hsend := leaderSends_all_found
    { st with
        fo_pending := upsert st.fo_pending (g, seq)
          ⟨grp.members, now + timeout, ⟨seq, st.id, vid, g, topic, opts⟩, vid⟩
        S := upsert st.S g (seq + 1) }
    grp.members (.vote ⟨seq, st.id, vid, g, topic, opts⟩) hL hc
  refine ⟨?_, ?_, ?_, ?_, ?_⟩ <;>
    simp [fo_multicast, hS, hG, hsend, alookup_upsert_self, clientAddr]

/-- Witness for C6 at a concrete leader state. -/
theorem claim_C6_witness :
    (fo_multicast stC6 "g" "v" "top" ["a", "b"] 30 100).1.S = upsert stC6.S "g" 1 ∧
    (fo_multicast stC6 "g" "v" "top" ["a", "b"] 30 100).2.1 =
      [⟨"aX", .vote ⟨0, stC6.id, "v", "g", "top", ["a", "b"]⟩⟩] := by
  have h := claim_C6_fo_multicast stC6 "g" "v" "top" ["a", "b"] 30 100 0 ⟨"X", ["X"]⟩
    (by decide) (by decide) (by decide) (by decide)
  exact ⟨h.1, by rw [h.2.2.2.1]; decide⟩

/-! ## C8: the HS_ELECTION handler -/

/-- C8: on `HS_ELECTION{cid, direction, hop}` with `neighbor` the ring
neighbour in the message's direction: a probe with `cid < self.id` is
swallowed (nothing forwarded, nothing replied — when no election is in
progress one is started, whose probes carry `self.id`, not `cid`); a probe
with `cid ≥ self.id` is forwarded to `neighbor` with `hop - 1` when
`hop > 1`, and answered with `HS_REPLY{id: cid, direction}` to `neighbor`
when `hop = 1`. -/
theorem claim_C8_hs_election (st : ServerState) (c d : String) (ph : Option Int)
    (h : Int) (l r : String) (hl : st.left = some l) (hr : st.right = some r)
    (hd : d = "LEFT" ∨ d = "RIGHT") :
    (c < st.id → st.election_in_progress = true →
      hs_election st (some c) ph (some d) (some h) = (st, [], true)) ∧
    (c < st.id → st.election_in_progress = false →
      hs_election st (some c) ph (some d) (some h) = hs_start st ∧
      (hs_election st (some c) ph (some d) (some h)).1.election_in_progress = true ∧
      ∀ o ∈ (hs_election st (some c) ph (some d) (some h)).2.1,
        (∀ p dir hp, o.msg ≠ .req (.hsElection (some c) p dir hp)) ∧
        (∀ dir, o.msg ≠ .req (.hsReply (some c) dir))) ∧
    (¬ c < st.id → h > 1 →
      hs_election st (some c) ph (some d) (some h) =
        (st, [⟨if d = "LEFT" then l else r,
               .req (.hsElection (some c) ph (some d) (some (h - 1)))⟩], true)) ∧
    (¬ c < st.id → h = 1 →
      hs_election st (some c) ph (some d) (some h) =
        (st, [⟨if d = "LEFT" then l else r, .req (.hsReply (some c) (some d))⟩], true)) := by
  refine ⟨?_, ?_, ?_, ?_⟩
  · intro hlt hip
    rcases hd with hd | hd <;> subst hd <;> simp [hs_election, hlt, hip]
  · intro hlt hip
    have hne : st.id ≠ c := (ne_of_lt hlt).symm
    have he : hs_election st (some c) ph (some d) (some h) = hs_start st := by
      rcases hd with hd | hd <;> subst hd <;> simp [hs_election, hlt, hip]
    refine ⟨he, ?_, ?_⟩
    · rw [he]
      simp [hs_start, hip, hl, hr, hs_send_neighbors, sendToOpt]
    · rw [he]
      intro o ho
      simp [hs_start, hip, hl, hr, hs_send_neighbors, sendToOpt] at ho
      rcases ho with ho | ho <;> subst ho <;>
        exact ⟨fun p dir hp => by simp [hne], fun dir => by simp⟩
  · intro hge hgt
    rcases hd with hd | hd <;> subst hd <;>
      simp [hs_election, hge, hgt, hl, hr, plainSend]
  · intro hge hgt
    subst hgt
    rcases hd with hd | hd <;> subst hd <;>
      simp [hs_election, hge, hl, hr, plainSend]

/-- Witness for C8: a probe from the lower id `a` while an election is in
progress is swallowed, and a probe from the higher id `c` with hop 2 is
forwarded with hop 1. -/
theorem claim_C8_witness :
    hs_election stC8 (some "a") (some 0) (some "LEFT") (some 1) = (stC8, [], true) ∧
    hs_election stC8 (some "c") (some 0) (some "RIGHT") (some 2) =
      (stC8, [⟨"c", .req (.hsElection (some "c") (some 0) (some "RIGHT") (some 1))⟩], true) := by
  have hab : ("a" : String) < "b" := by rw [String.lt_iff_toList_lt]; decide
  have hcb : ¬ ("c" : String) < "b" := by rw [String.lt_iff_toList_lt]; decide
  have h₁ := claim_C8_hs_election stC8 "a" "LEFT" (some 0) 1 "a" "c" rfl rfl (Or.inl rfl)
  have h₂ := claim_C8_hs_election stC8 "c" "RIGHT" (some 0) 2 "a" "c" rfl rfl (Or.inr rfl)
  exact ⟨h₁.1 hab rfl, h₂.2.2.1 hcb (by decide)⟩

/-! ## C7: one iteration of the retransmission loop -/

theorem alookup_eq_none_of_not_mem_keys [DecidableEq κ] {l : List (κ × β)} {k : κ}
    (h : k ∉ l.map Prod.fst) : alookup l k = none := by
  induction l with
  | nil => simp
  | cons q t ih =>
    obtain ⟨k₀, v₀⟩ := q
    simp only [List.map_cons, List.mem_cons, not_or] at h
    simp [Ne.symm h.1, ih h.2]

@[simp] theorem alookup_cons_self [DecidableEq κ] (k : κ) (v : β) (t : List (κ × β)) :
    alookup ((k, v) :: t) k = some v := by simp

theorem alookup_rmKey_ne [DecidableEq κ] (l : List (κ × β)) (k k' : κ) (h : k' ≠ k) :
    alookup (rmKey l k) k' = alookup l k' := by
  induction l with
  | nil => simp
  | cons q t ih =>
    obtain ⟨k₀, v₀⟩ := q
    by_cases h₀ : k₀ = k
    · subst h₀
      have h' : k₀ ≠ k' := fun hh => h hh.symm
      simp [h', ih]
    · simp [h₀, ih]

theorem alookup_rmKey_self [DecidableEq κ] (l : List (κ × β)) (k : κ)
    (hnd : (l.map Prod.fst).Nodup) : alookup (rmKey l k) k = none := by
  induction l with
  | nil => simp
  | cons q t ih =>
    obtain ⟨k₀, v₀⟩ := q
    simp only [List.map_cons, List.nodup_cons] at hnd
    by_cases h₀ : k₀ = k
    · subst h₀
      simp only [rmKey_cons, if_pos rfl]
      exact alookup_eq_none_of_not_mem_keys hnd.1
    · simp [h₀, ih hnd.2]

theorem mem_filter_keys_iff [DecidableEq κ] {l : List (κ × β)} {P : κ × β → Bool}
    {k : κ} {e : β} (hnd : (l.map Prod.fst).Nodup) (h : alookup l k = some e) :
    k ∈ (l.filter P).map Prod.fst ↔ P (k, e) = true := by
  induction l with
  | nil => simp at h
  | cons q t ih =>
    obtain ⟨k₀, v₀⟩ := q
    simp only [List.map_cons, List.nodup_cons] at hnd
    by_cases h₀ : k₀ = k
    · subst h₀
      rw [alookup_cons_self] at h
      injection h with hh
      subst hh
      constructor
      · intro hmem
        by_cases hp : P (k₀, v₀) = true
        · exact hp
        · rw [List.filter_cons_of_neg (by simpa using hp)] at hmem
          exfalso
          rcases List.mem_map.mp hmem with ⟨q, hq, hq2⟩
          exact hnd.1 (hq2 ▸ List.mem_map_of_mem Prod.fst (List.mem_of_mem_filter hq))
      · intro hp
        rw [List.filter_cons_of_pos hp]
        simp
    · simp only [alookup_cons, if_neg h₀] at h
      by_cases hp : P (k₀, v₀) = true
      · rw [List.filter_cons_of_pos hp]
        simp only [List.map_cons, List.mem_cons]
        rw [ih hnd.2 h]
        constructor
        · rintro (rfl | hh)
          · exact absurd rfl h₀
          · exact hh
        · exact Or.inr
      · rw [List.filter_cons_of_neg (by simpa using hp)]
        exact ih hnd.2 h

theorem finalize_vote_state (st : ServerState) (v : String) :
    (finalize_vote st v).1 = st := by
  simp only [finalize_vote]
  repeat' split
  all_goals rfl

theorem leaderSends_congr (st st' : ServerState) (cids : List String) (m : OutMsg)
    (hc : st'.clients = st.clients) (hl : st'.is_leader = st.is_leader) :
    leaderSends st' cids m = leaderSends st cids m := by
  induction cids with
  | nil => rfl
  | cons c t ih =>
    cases hcl : alookup st.clients c with
    | none => simp [leaderSends, hc, hcl]
    | some sess => simp [leaderSends, hc, hcl, leaderSend, hl, ih]

theorem finalize_vote_congr (st st' : ServerState) (v : String)
    (hv : st'.votes = st.votes) (hg : st'.groups = st.groups)
    (hc : st'.clients = st.clients) (hl : st'.is_leader = st.is_leader) :
    (finalize_vote st' v).2 = (finalize_vote st v).2 := by
  cases h₁ : alookup st.votes v with
  | none => simp [finalize_vote, hv, hg, h₁]
  | some vv =>
    cases h₂ : ballotChoices vv.votes with
    | none => simp [finalize_vote, hv, hg, h₁, h₂]
    | some cs =>
      cases h₃ : alookup st.groups vv.group with
      | none => simp [finalize_vote, hv, hg, h₁, h₂, h₃]
      | some grp =>
        simp [finalize_vote, hv, hg, h₁, h₂, h₃,
          leaderSends_congr st st' grp.members _ hc hl]

theorem finalize_vote_fo_pending (st : ServerState)
    (x : List ((String × Int) × FoEntry)) (v : String) :
    (finalize_vote { st with fo_pending := x } v).2 = (finalize_vote st v).2 :=
  finalize_vote_congr st { st with fo_pending := x } v rfl rfl rfl rfl

theorem leaderSends_mem (st : ServerState) (cids : List String) (m : OutMsg)
    (hok : (leaderSends st cids m).2 = true) (hL : st.is_leader = true) :
    ∀ c ∈ cids, (⟨clientAddr st c, m⟩ : Output) ∈ (leaderSends st cids m).1 := by
  induction cids with
  | nil => simp
  | cons c t ih =>
    cases hl : alookup st.clients c with
    | none => simp [leaderSends, hl] at hok
    | some sess =>
      have hok' : (leaderSends st t m).2 = true := by
        simpa [leaderSends, hl] using hok
      intro x hx
      rcases List.mem_cons.mp hx with rfl | hx'
      · simp [leaderSends, hl, leaderSend, hL, clientAddr]
      · simp only [leaderSends, hl]
        exact List.mem_append_right _ (ih hok' x hx')

theorem retransPass_fins (st : ServerState) (now : Int)
    (l : List ((String × Int) × FoEntry))
    (hok : (retransPass st now l).2.2 = true) :
    (retransPass st now l).1 =
      (l.filter (fun p => decide (p.2.deadline < now ∨ p.2.pending = []))).map
        Prod.fst := by
  induction l with
  | nil => simp [retransPass]
  | cons p t ih =>
    obtain ⟨k, e⟩ := p
    by_cases hc : e.deadline < now ∨ e.pending = []
    · have hok' : (retransPass st now t).2.2 = true := by
        simp only [retransPass] at hok
        rw [if_pos (by simpa using hc)] at hok
        exact hok
      simp only [retransPass]
      rw [if_pos (by simpa using hc)]
      simp [List.filter_cons, hc, ih hok']
    · cases hs : (leaderSends st e.pending (.vote e.msg)).2 with
      | false =>
        exfalso
        simp only [retransPass] at hok
        rw [if_neg (by simpa using hc), hs] at hok
        simp at hok
      | true =>
        have hok' : (retransPass st now t).2.2 = true := by
          simp only [retransPass] at hok
          rw [if_neg (by simpa using hc), hs] at hok
          simpa using hok
        simp only [retransPass]
        rw [if_neg (by simpa using hc), hs]
        simp [List.filter_cons, hc, ih hok']

theorem retransPass_sends (st : ServerState) (now : Int)
    (l : List ((String × Int) × FoEntry)) (hok : (retransPass st now l).2.2 = true)
    (hL : st.is_leader = true) (k : String × Int) (e : FoEntry)
    (hmem : (k, e) ∈ l) (hc : ¬(e.deadline < now ∨ e.pending = [])) :
    ∀ c ∈ e.pending,
      (⟨clientAddr st c, .vote e.msg⟩ : Output) ∈ (retransPass st now l).2.1 := by
  induction l with
  | nil => simp at hmem
  | cons p t ih =>
    obtain ⟨k₀, e₀⟩ := p
    by_cases hc₀ : e₀.deadline < now ∨ e₀.pending = []
    · have hok' : (retransPass st now t).2.2 = true := by
        simp only [retransPass] at hok
        rw [if_pos (by simpa using hc₀)] at hok
        exact hok
      rcases List.mem_cons.mp hmem with heq | hmem'
      · exfalso
        injection heq with h1 h2
        subst h1; subst h2
        exact hc hc₀
      · intro c hcp
        simp only [retransPass]
        rw [if_pos (by simpa using hc₀)]
        exact ih hok' hmem' c hcp
    · cases hs : (leaderSends st e₀.pending (.vote e₀.msg)).2 with
      | false =>
        exfalso
        simp only [retransPass] at hok
        rw [if_neg (by simpa using hc₀), hs] at hok
        simp at hok
      | true =>
        have hok' : (retransPass st now t).2.2 = true := by
          simp only [retransPass] at hok
          rw [if_neg (by simpa using hc₀), hs] at hok
          simpa using hok
        rcases List.mem_cons.mp hmem with heq | hmem'
        · injection heq with h1 h2
          subst h1; subst h2
          intro c hcp
          have hmm := leaderSends_mem st e.pending (.vote e.msg) hs hL c hcp
          simp only [retransPass]
          rw [if_neg (by simpa using hc₀), hs]
          simpa using List.mem_append_left _ hmm
        · intro c hcp
          have hmm := ih hok' hmem' c hcp
          simp only [retransPass]
          rw [if_neg (by simpa using hc₀), hs]
          simpa using List.mem_append_right _ hmm

theorem popFinished_cons (st : ServerState) (k₀ : String × Int)
    (t : List (String × Int)) (entry : FoEntry)
    (hl : alookup st.fo_pending k₀ = some entry) :
    popFinished st (k₀ :: t) =
      (if (if entry.vote_id ≠ "" then (finalize_vote st entry.vote_id).2.2 else true) then
        ((popFinished { st with fo_pending := rmKey st.fo_pending k₀ } t).1,
         (if entry.vote_id ≠ "" then (finalize_vote st entry.vote_id).2.1 else []) ++
           (popFinished { st with fo_pending := rmKey st.fo_pending k₀ } t).2.1,
         (popFinished { st with fo_pending := rmKey st.fo_pending k₀ } t).2.2)
      else ({ st with fo_pending := rmKey st.fo_pending k₀ },
            (if entry.vote_id ≠ "" then (finalize_vote st entry.vote_id).2.1 else []),
            false)) := by
  simp only [popFinished, hl]
  by_cases hv : entry.vote_id ≠ ""
  · simp only [if_pos hv, finalize_vote_fo_pending, finalize_vote_state]
  · simp only [if_neg hv]

theorem popFinished_fo (st : ServerState) (ks : List (String × Int))
    (hnd : (st.fo_pending.map Prod.fst).Nodup)
    (hok : (popFinished st ks).2.2 = true) (k : String × Int) :
    alookup (popFinished st ks).1.fo_pending k =
      if k ∈ ks then none else alookup st.fo_pending k := by
  induction ks generalizing st with
  | nil => simp [popFinished]
  | cons k₀ t ih =>
    cases hl : alookup st.fo_pending k₀ with
    | none => simp [popFinished, hl] at hok
    | some entry =>
      rw [popFinished_cons st k₀ t entry hl] at hok ⊢
      by_cases hv :
          (if entry.vote_id ≠ "" then (finalize_vote st entry.vote_id).2.2 else true) = true
      · rw [if_pos hv] at hok ⊢
        dsimp only at hok ⊢
        have hnd₁ : ((rmKey st.fo_pending k₀).map Prod.fst).Nodup :=
          (keys_rmKey_sublist st.fo_pending k₀).nodup hnd
        rw [ih { st with fo_pending := rmKey st.fo_pending k₀ } hnd₁ hok]
        by_cases hk : k ∈ t
        · simp [hk]
        · by_cases hk₀ : k = k₀
          · subst hk₀
            simp [hk, alookup_rmKey_self st.fo_pending k hnd]
          · simp [hk, hk₀, alookup_rmKey_ne st.fo_pending k₀ k hk₀]
      · rw [if_neg hv] at hok
        dsimp only at hok
        exact absurd hok (by simp)

theorem popFinished_outs (st : ServerState) (ks : List (String × Int))
    (hnd : (st.fo_pending.map Prod.fst).Nodup) (hknd : ks.Nodup)
    (hok : (popFinished st ks).2.2 = true) :
    ∀ k ∈ ks, ∀ e, alookup st.fo_pending k = some e → e.vote_id ≠ "" →
      ∀ o ∈ (finalize_vote st e.vote_id).2.1, o ∈ (popFinished st ks).2.1 := by
  induction ks generalizing st with
  | nil => simp
  | cons k₀ t ih =>
    cases hl : alookup st.fo_pending k₀ with
    | none => simp [popFinished, hl] at hok
    | some entry =>
      rw [popFinished_cons st k₀ t entry hl] at hok ⊢
      by_cases hv :
          (if entry.vote_id ≠ "" then (finalize_vote st entry.vote_id).2.2 else true) = true
      · rw [if_pos hv] at hok ⊢
        dsimp only at hok ⊢
        intro k hk e he hvid o ho
        rcases List.mem_cons.mp hk with rfl | hkt
        · rw [hl] at he
          injection he with hee
          subst hee
          exact List.mem_append_left _ (by rw [if_pos hvid]; exact ho)
        · have hkk₀ : k ≠ k₀ := by
            rintro rfl
            exact (List.nodup_cons.mp hknd).1 hkt
          have hnd₁ : ((rmKey st.fo_pending k₀).map Prod.fst).Nodup :=
            (keys_rmKey_sublist st.fo_pending k₀).nodup hnd
          have he₁ : alookup ({ st with fo_pending := rmKey st.fo_pending k₀ } :
              ServerState).fo_pending k = some e := by
            show alookup (rmKey st.fo_pending k₀) k = some e
            rw [alookup_rmKey_ne st.fo_pending k₀ k hkk₀]
            exact he
          have ho₁ : o ∈ (finalize_vote
              { st with fo_pending := rmKey st.fo_pending k₀ } e.vote_id).2.1 := by
            rw [finalize_vote_fo_pending]
            exact ho
          exact List.mem_append_right _
            (ih { st with fo_pending := rmKey st.fo_pending k₀ } hnd₁
              (List.nodup_cons.mp hknd).2 hok k hkt e he₁ hvid o ho₁)
      · rw [if_neg hv] at hok
        dsimp only at hok
        exact absurd hok (by simp)

/-- C7 counterexample: at `now = deadline` (so `now ≥ deadline` holds) with
a nonempty pending set, the claim says the entry is removed, but the code's
strict `now > entry["deadline"]` keeps it in the table (and retransmits). -/
theorem claim_C7_boundary_not_removed :
    (10 : Int) ≥ 10 ∧
    (fo_retransmit_step stC7 10).1.fo_pending = stC7.fo_pending ∧
    alookup (fo_retransmit_step stC7 10).1.fo_pending ("g", 0) =
      some ⟨["X"], 10, msgC7, "v7"⟩ := by decide

/-- C7 amended: in one exception-free iteration of the retransmission loop
at a leader, a pending entry is removed from the table iff its pending set
is empty or `now` is *strictly* past its deadline; an entry that stays is
re-unicast to every client still in its pending set; and every removed
entry carrying a (truthy) vote id triggers the finalization of that vote
(all of that finalization's sends appear in the iteration's output). -/
theorem claim_C7_retransmit_step (st : ServerState) (now : Int)
    (hnd : (st.fo_pending.map Prod.fst).Nodup)
    (hok : (fo_retransmit_step st now).2.2 = true)
    (hL : st.is_leader = true) :
    (∀ k e, alookup st.fo_pending k = some e →
      (alookup (fo_retransmit_step st now).1.fo_pending k = none ↔
        (e.pending = [] ∨ now > e.deadline))) ∧
    (∀ k e, alookup st.fo_pending k = some e →
      ¬(e.pending = [] ∨ now > e.deadline) →
      alookup (fo_retransmit_step st now).1.fo_pending k = some e ∧
      ∀ c ∈ e.pending,
        (⟨clientAddr st c, .vote e.msg⟩ : Output) ∈ (fo_retransmit_step st now).2.1) ∧
    (∀ k e, alookup st.fo_pending k = some e →
      (e.pending = [] ∨ now > e.deadline) → e.vote_id ≠ "" →
      ∀ o ∈ (finalize_vote st e.vote_id).2.1, o ∈ (fo_retransmit_step st now).2.1) := by
  have hp : (retransPass st now st.fo_pending).2.2 = true := by
    by_cases h : (retransPass st now st.fo_pending).2.2 = true
    · exact h
    · exfalso
      simp [fo_retransmit_step, h] at hok
  have hq : (popFinished st (retransPass st now st.fo_pending).1).2.2 = true := by
    simpa [fo_retransmit_step, hp] using hok
  have hres : fo_retransmit_step st now =
      ((popFinished st (retransPass st now st.fo_pending).1).1,
       (retransPass st now st.fo_pending).2.1 ++
         (popFinished st (retransPass st now st.fo_pending).1).2.1,
       (popFinished st (retransPass st now st.fo_pending).1).2.2) := by
    simp [fo_retransmit_step, hp]
  have hfins := retransPass_fins st now st.fo_pending hp
  have hfnd : (retransPass st now st.fo_pending).1.Nodup := by
    rw [hfins]
    exact ((List.filter_sublist st.fo_pending).map Prod.fst).nodup hnd
  have hmem : ∀ k e, alookup st.fo_pending k = some e →
      (k ∈ (retransPass st now st.fo_pending).1 ↔
        (e.pending = [] ∨ now > e.deadline)) := by
    intro k e he
    rw [hfins, mem_filter_keys_iff hnd he]
    simp [List.isEmpty_iff, or_comm, gt_iff_lt]
  refine ⟨?_, ?_, ?_⟩
  · intro k e he
    rw [hres]
    dsimp only
    rw [popFinished_fo st _ hnd hq k]
    constructor
    · intro hnone
      by_cases hk : k ∈ (retransPass st now st.fo_pending).1
      · exact (hmem k e he).mp hk
      · rw [if_neg hk, he] at hnone
        exact absurd hnone (by simp)
    · intro hcond
      rw [if_pos ((hmem k e he).mpr hcond)]
  · intro k e he hcond
    constructor
    · rw [hres]
      dsimp only
      rw [popFinished_fo st _ hnd hq k,
        if_neg (fun hk => hcond ((hmem k e he).mp hk))]
      exact he
    · intro c hc
      have hsend := retransPass_sends st now st.fo_pending hp hL k e
        (mem_of_alookup_eq_some he)
        (by
          intro hcontra
          exact hcond (by
            rcases hcontra with h1 | h2
            · exact Or.inr h1
            · exact Or.inl h2)) c hc
      rw [hres]
      exact List.mem_append_left _ hsend
  · intro k e he hcond hv o ho
    have hout := popFinished_outs st (retransPass st now st.fo_pending).1 hnd hfnd hq
      k ((hmem k e he).mpr hcond) e he hv o ho
    rw [hres]
    exact List.mem_append_right _ hout

/-- Witness for C7 amended: at `now = 20` (strictly past the deadline 10)
the concrete entry `(g, 0)` is removed. -/
theorem claim_C7_retransmit_step_witness :
    alookup (fo_retransmit_step stC7 20).1.fo_pending ("g", 0) = none :=
  ((claim_C7_retransmit_step stC7 20 (by decide) (by decide) (by decide)).1
      ("g", 0) ⟨["X"], 10, msgC7, "v7"⟩ (by decide)).mpr (by decide)

/-! ## C2: receiver-side FIFO delivery -/

theorem alookup_eq_none_forall [DecidableEq κ] {l : List (κ × β)} {k : κ}
    (h : alookup l k = none) : ∀ p ∈ l, p.1 ≠ k := by
  induction l with
  | nil => simp
  | cons q t ih =>
    obtain ⟨k₀, v₀⟩ := q
    by_cases h₀ : k₀ = k
    · subst h₀
      rw [alookup_cons_self] at h
      exact absurd h (by simp)
    · simp only [alookup_cons, if_neg h₀] at h
      intro p hp
      rcases List.mem_cons.mp hp with rfl | hp'
      · exact h₀
      · exact ih h p hp'

theorem mem_upsert [DecidableEq κ] {l : List (κ × β)} {k : κ} {v : β} {p : κ × β}
    (h : p ∈ upsert l k v) : p ∈ l ∨ p = (k, v) := by
  induction l with
  | nil => simpa using h
  | cons q t ih =>
    obtain ⟨k₀, v₀⟩ := q
    by_cases h₀ : k₀ = k
    · subst h₀
      simp only [upsert_cons, if_pos rfl] at h
      rcases List.mem_cons.mp h with rfl | hp'
      · exact Or.inr rfl
      · exact Or.inl (List.mem_cons_of_mem _ hp')
    · simp only [upsert_cons, if_neg h₀] at h
      rcases List.mem_cons.mp h with rfl | hp'
      · exact Or.inl (List.mem_cons_self _ _)
      · rcases ih hp' with hh | hh
        · exact Or.inl (List.mem_cons_of_mem _ hh)
        · exact Or.inr hh

theorem mem_keys_upsert [DecidableEq κ] {l : List (κ × β)} {k : κ} {v : β} {x : κ}
    (h : x ∈ (upsert l k v).map Prod.fst) : x ∈ l.map Prod.fst ∨ x = k := by
  rcases List.mem_map.mp h with ⟨p, hp, rfl⟩
  rcases mem_upsert hp with hh | hh
  · exact Or.inl (List.mem_map_of_mem _ hh)
  · exact Or.inr (by rw [hh])

theorem keys_upsert_nodup [DecidableEq κ] {l : List (κ × β)} (k : κ) (v : β)
    (hnd : (l.map Prod.fst).Nodup) : ((upsert l k v).map Prod.fst).Nodup := by
  induction l with
  | nil => simp
  | cons q t ih =>
    obtain ⟨k₀, v₀⟩ := q
    simp only [List.map_cons, List.nodup_cons] at hnd
    by_cases h₀ : k₀ = k
    · subst h₀
      simpa using hnd
    · simp only [upsert_cons, if_neg h₀, List.map_cons, List.nodup_cons]
      refine ⟨?_, ih hnd.2⟩
      intro hmem
      rcases mem_keys_upsert hmem with hh | hh
      · exact hnd.1 hh
      · exact h₀ hh

theorem drain_eq_none (st : FifoState) (h : alookup st.hb (st.R + 1) = none) :
    drain st = (st, []) := by
  rw [drain]
  split
  · rfl
  · rename_i m hm
    rw [h] at hm
    exact absurd hm (by simp)

theorem drain_eq_some (st : FifoState) (m : VoteMsg)
    (h : alookup st.hb (st.R + 1) = some m) :
    drain st = ((drain ⟨m.S, rmKey st.hb (st.R + 1)⟩).1,
                m :: (drain ⟨m.S, rmKey st.hb (st.R + 1)⟩).2) := by
  rw [drain]
  split
  · rename_i hm
    rw [h] at hm
    exact absurd hm (by simp)
  · rename_i m' hm
    rw [h] at hm
    injection hm with hmm
    subst hmm
    rfl

theorem drain_spec (st : FifoState) (hw : FifoInvW st) :
    FifoInv (drain st).1 ∧
    st.R ≤ (drain st).1.R ∧
    (∀ d ∈ (drain st).2, st.R < d.S ∧ d.S ≤ (drain st).1.R) ∧
    (drain st).2.Pairwise (fun a b => a.S < b.S) := by
  generalize hn : st.hb.length = n
  induction n using Nat.strong_induction_on generalizing st with
  | _ n ih =>
    cases hl : alookup st.hb (st.R + 1) with
    | none =>
      rw [drain_eq_none st hl]
      exact ⟨⟨hw, hl⟩, le_refl _, by simp, by simp⟩
    | some m =>
      rw [drain_eq_some st m hl]
      dsimp only
      have hmem := mem_of_alookup_eq_some hl
      have hms : m.S = st.R + 1 := (hw.1 _ hmem).1
      have hw' : FifoInvW ⟨m.S, rmKey st.hb (st.R + 1)⟩ := by
        constructor
        · intro p hp
          have hp₀ := hw.1 p (rmKey_subset hp)
          have hlt : st.R < p.1 := hp₀.2
          have hne : p.1 ≠ st.R + 1 := mem_rmKey_key_ne hw.2 hp
          refine ⟨hp₀.1, ?_⟩
          show m.S < p.1
          omega
        · exact (keys_rmKey_sublist _ _).nodup hw.2
      have hlen : (rmKey st.hb (st.R + 1)).length < n := hn ▸ rmKey_length_lt hl
      obtain ⟨hInv', hR', hbnd', hpw'⟩ := ih _ hlen ⟨m.S, rmKey st.hb (st.R + 1)⟩ hw' rfl
      have hR'' : m.S ≤ (drain ⟨m.S, rmKey st.hb (st.R + 1)⟩).1.R := hR'
      refine ⟨hInv', by omega, ?_, ?_⟩
      · intro d hd
        rcases List.mem_cons.mp hd with rfl | hd'
        · exact ⟨by omega, hR''⟩
        · have hb1 : m.S < d.S := (hbnd' d hd').1
          have hb2 := (hbnd' d hd').2
          exact ⟨by omega, hb2⟩
      · refine List.Pairwise.cons ?_ hpw'
        intro d hd
        exact (hbnd' d hd).1

theorem clientVote_spec (st : FifoState) (m : VoteMsg) (hInv : FifoInv st) :
    FifoInv (clientVote st m).1 ∧ st.R ≤ (clientVote st m).1.R ∧
    (∀ d ∈ (clientVote st m).2, st.R < d.S ∧ d.S ≤ (clientVote st m).1.R) ∧
    (clientVote st m).2.Pairwise (fun a b => a.S < b.S) := by
  by_cases h1 : m.S = st.R + 1
  · have hw₁ : FifoInvW ⟨m.S, st.hb⟩ := by
      constructor
      · intro p hp
        have hp₀ := hInv.1.1 p hp
        have hlt : st.R < p.1 := hp₀.2
        have hne : p.1 ≠ st.R + 1 := alookup_eq_none_forall hInv.2 p hp
        refine ⟨hp₀.1, ?_⟩
        show m.S < p.1
        omega
      · exact hInv.1.2
    obtain ⟨hInv', hR', hbnd', hpw'⟩ := drain_spec ⟨m.S, st.hb⟩ hw₁
    have hR'' : m.S ≤ (drain ⟨m.S, st.hb⟩).1.R := hR'
    have hcv : clientVote st m =
        ((drain ⟨m.S, st.hb⟩).1, m :: (drain ⟨m.S, st.hb⟩).2) := by
      simp [clientVote, h1, fo_deliver]
    rw [hcv]
    dsimp only
    refine ⟨hInv', by omega, ?_, ?_⟩
    · intro d hd
      rcases List.mem_cons.mp hd with rfl | hd'
      · exact ⟨by omega, hR''⟩
      · have hb1 : m.S < d.S := (hbnd' d hd').1
        have hb2 := (hbnd' d hd').2
        exact ⟨by omega, hb2⟩
    · refine List.Pairwise.cons ?_ hpw'
      intro d hd
      exact (hbnd' d hd).1
  · by_cases h2 : m.S > st.R + 1
    · have hcv : clientVote st m = (⟨st.R, upsert st.hb m.S m⟩, []) := by
        simp [clientVote, h1, h2]
      rw [hcv]
      refine ⟨⟨⟨?_, ?_⟩, ?_⟩, le_refl _, by simp, by simp⟩
      · intro p hp
        rcases mem_upsert hp with hh | hh
        · have hp₀ := hInv.1.1 p hh
          have hlt : st.R < p.1 := hp₀.2
          exact ⟨hp₀.1, by show st.R < p.1; omega⟩
        · subst hh
          refine ⟨rfl, ?_⟩
          show st.R < m.S
          omega
      · exact keys_upsert_nodup _ _ hInv.1.2
      · show alookup (upsert st.hb m.S m) (st.R + 1) = none
        rw [alookup_upsert_ne _ _ _ _ (by omega)]
        exact hInv.2
    · have hcv : clientVote st m = (st, []) := by
        simp [clientVote, h1, h2]
      rw [hcv]
      exact ⟨hInv, le_refl _, by simp, by simp⟩

theorem runFrom_spec (ms : List VoteMsg) (st : FifoState) (hInv : FifoInv st) :
    FifoInv (runFrom st ms).1 ∧ st.R ≤ (runFrom st ms).1.R ∧
    (∀ d ∈ (runFrom st ms).2, st.R < d.S ∧ d.S ≤ (runFrom st ms).1.R) ∧
    (runFrom st ms).2.Pairwise (fun a b => a.S < b.S) := by
  induction ms generalizing st with
  | nil => exact ⟨hInv, le_refl _, by simp [runFrom], by simp [runFrom]⟩
  | cons m t ih =>
    obtain ⟨sInv, sR, sB, sP⟩ := clientVote_spec st m hInv
    obtain ⟨rInv, rR, rB, rP⟩ := ih (clientVote st m).1 sInv
    have hrf : runFrom st (m :: t) =
        ((runFrom (clientVote st m).1 t).1,
         (clientVote st m).2 ++ (runFrom (clientVote st m).1 t).2) := rfl
    rw [hrf]
    refine ⟨rInv, le_trans sR rR, ?_, ?_⟩
    · intro d hd
      rcases List.mem_append.mp hd with hd' | hd'
      · have hb := sB d hd'
        exact ⟨hb.1, le_trans hb.2 rR⟩
      · have hb := rB d hd'
        exact ⟨lt_of_le_of_lt sR hb.1, hb.2⟩
    · rw [List.pairwise_append]
      refine ⟨sP, rP, ?_⟩
      intro a ha b hb
      have h₁ := (sB a ha).2
      have h₂ := (rB b hb).1
      omega

/-- C2: the receiver FIFO logic of `Client.__vote`, for one
`(group, sender)` stream in a state satisfying the hold-back invariant:
a message with `s = R + 1` is delivered first and the hold-back is drained
past the new `R` (no `(R+1)` entry remains); a message with `s > R + 1` is
inserted into the hold-back under key `s` and not delivered; a message with
`s ≤ R` is ignored (state unchanged, nothing delivered).  Consequently the
messages delivered over any trace of received messages have strictly
increasing sequence numbers — each sequence number is delivered at most
once. -/
theorem claim_C2_receiver_fifo (st : FifoState) (m : VoteMsg) (hInv : FifoInv st) :
    (m.S = st.R + 1 →
      (clientVote st m).2.head? = some m ∧
      FifoInv (clientVote st m).1 ∧
      alookup (clientVote st m).1.hb ((clientVote st m).1.R + 1) = none ∧
      m.S ≤ (clientVote st m).1.R) ∧
    (m.S > st.R + 1 →
      (clientVote st m).1 = ⟨st.R, upsert st.hb m.S m⟩ ∧ (clientVote st m).2 = []) ∧
    (m.S ≤ st.R → clientVote st m = (st, [])) ∧
    (∀ ms : List VoteMsg, ((runTrace ms).2.map VoteMsg.S).Pairwise (· < ·)) := by
  refine ⟨?_, ?_, ?_, ?_⟩
  · intro h1
    obtain ⟨sInv, sR, sB, _⟩ := clientVote_spec st m hInv
    refine ⟨?_, sInv, sInv.2, ?_⟩
    · simp [clientVote, h1, fo_deliver]
    · have hm : m ∈ (clientVote st m).2 := by
        simp [clientVote, h1, fo_deliver]
      exact (sB m hm).2
  · intro h2
    have h1 : ¬ m.S = st.R + 1 := by omega
    constructor <;> simp [clientVote, h1, h2]
  · intro h3
    have h1 : ¬ m.S = st.R + 1 := by omega
    have h2 : ¬ m.S > st.R + 1 := by omega
    simp [clientVote, h1, h2]
  · intro ms
    have hInit : FifoInv initFifo := by
      refine ⟨⟨by simp [initFifo], by simp [initFifo]⟩, by simp [initFifo]⟩
    obtain ⟨_, _, _, hP⟩ := runFrom_spec ms initFifo hInit
    rw [List.pairwise_map]
    exact hP

/-- Witness for C2: on the initial state, the in-order message with
sequence number 0 is delivered immediately. -/
theorem claim_C2_witness :
    FifoInv initFifo ∧
    (clientVote initFifo ⟨0, "q", "v", "g", "t", ["a"]⟩).2.head? =
      some ⟨0, "q", "v", "g", "t", ["a"]⟩ :=
  ⟨⟨⟨by simp [initFifo], by simp [initFifo]⟩, by simp [initFifo]⟩,
   ((claim_C2_receiver_fifo initFifo ⟨0, "q", "v", "g", "t", ["a"]⟩
      ⟨⟨by simp [initFifo], by simp [initFifo]⟩, by simp [initFifo]⟩).1
      (by decide)).1⟩

/-! ## C1: the winner computation of vote finalization -/

theorem mem_firstOccs (cs : List String) (c : String) :
    c ∈ firstOccs cs ↔ c ∈ cs := by
  induction cs with
  | nil => simp [firstOccs]
  | cons x t ih =>
    simp only [firstOccs, List.mem_cons, List.mem_filter]
    constructor
    · rintro (rfl | ⟨hmem, _⟩)
      · exact Or.inl rfl
      · exact Or.inr (ih.mp hmem)
    · rintro (rfl | hmem)
      · exact Or.inl rfl
      · by_cases hc : c = x
        · exact Or.inl hc
        · exact Or.inr ⟨ih.mpr hmem, by simp [hc]⟩

theorem nodup_firstOccs (cs : List String) : (firstOccs cs).Nodup := by
  induction cs with
  | nil => simp [firstOccs]
  | cons x t ih =>
    simp only [firstOccs, List.nodup_cons]
    refine ⟨?_, ih.filter _⟩
    intro hmem
    have := List.of_mem_filter hmem
    simp at this

theorem firstOccs_snoc (cs : List String) (c : String) :
    firstOccs (cs ++ [c]) =
      if c ∈ cs then firstOccs cs else firstOccs cs ++ [c] := by
  induction cs with
  | nil => simp [firstOccs]
  | cons x t ih =>
    by_cases hct : c ∈ t
    · have ih' : firstOccs (t ++ [c]) = firstOccs t := by rw [ih, if_pos hct]
      rw [List.cons_append, if_pos (List.mem_cons.mpr (Or.inr hct))]
      show x :: (firstOccs (t ++ [c])).filter (· ≠ x) =
        x :: (firstOccs t).filter (· ≠ x)
      rw [ih']
    · have ih' : firstOccs (t ++ [c]) = firstOccs t ++ [c] := by rw [ih, if_neg hct]
      by_cases hcx : c = x
      · subst hcx
        rw [List.cons_append, if_pos (List.mem_cons.mpr (Or.inl rfl))]
        show c :: (firstOccs (t ++ [c])).filter (· ≠ c) =
          c :: (firstOccs t).filter (· ≠ c)
        rw [ih', List.filter_append]
        simp
      · have hmem : c ∉ x :: t := by simp [hcx, hct]
        rw [List.cons_append, if_neg hmem]
        show x :: (firstOccs (t ++ [c])).filter (· ≠ x) =
          (x :: (firstOccs t).filter (· ≠ x)) ++ [c]
        rw [ih', List.filter_append]
        simp [hcx]

theorem firstOccs_pairwise_indexOf (cs : List String) :
    (firstOccs cs).Pairwise (fun a b => cs.indexOf a < cs.indexOf b) := by
  induction cs with
  | nil => simp [firstOccs]
  | cons x t ih =>
    simp only [firstOccs]
    refine List.Pairwise.cons ?_ ?_
    · intro b hb
      have hbne : b ≠ x := by
        have := List.of_mem_filter hb
        simpa using this
      rw [List.indexOf_cons_self, List.indexOf_cons_ne _ (Ne.symm hbne)]
      omega
    · refine List.Pairwise.imp_of_mem ?_ (ih.filter _)
      intro a b ha hb hab
      have hane : a ≠ x := by
        have := List.of_mem_filter ha
        simpa using this
      have hbne : b ≠ x := by
        have := List.of_mem_filter hb
        simpa using this
      rw [List.indexOf_cons_ne _ (Ne.symm hane), List.indexOf_cons_ne _ (Ne.symm hbne)]
      omega

theorem bump_of_not_mem (l : List (String × Nat)) (c : String)
    (h : c ∉ l.map Prod.fst) : bump l c = l ++ [(c, 1)] := by
  induction l with
  | nil => rfl
  | cons q t ih =>
    obtain ⟨k, n⟩ := q
    simp only [List.map_cons, List.mem_cons, not_or] at h
    simp [bump, Ne.symm h.1, ih h.2]

theorem bump_map (l : List String) (f : String → Nat) (c : String)
    (hnd : l.Nodup) (hc : c ∈ l) :
    bump (l.map (fun k => (k, f k))) c =
      l.map (fun k => (k, if k = c then f k + 1 else f k)) := by
  induction l with
  | nil => simp at hc
  | cons x t ih =>
    simp only [List.map_cons, bump]
    by_cases hx : x = c
    · subst hx
      rw [if_pos rfl]
      congr 1
      · simp
      · refine List.map_congr_left ?_
        intro k hk
        have hne : k ≠ x := fun hh => (List.nodup_cons.mp hnd).1 (hh ▸ hk)
        simp [hne]
    · rw [if_neg hx]
      have hct : c ∈ t := by
        rcases List.mem_cons.mp hc with rfl | h
        · exact absurd rfl hx
        · exact h
      simp [ih (List.nodup_cons.mp hnd).2 hct, hx]

theorem countsOf_snoc (cs : List String) (c : String) :
    countsOf (cs ++ [c]) = bump (countsOf cs) c := by
  simp [countsOf, List.foldl_append]

theorem countsOf_eq (cs : List String) :
    countsOf cs = (firstOccs cs).map (fun k => (k, cs.count k)) := by
  induction cs using List.reverseRecOn with
  | nil => simp [countsOf, firstOccs]
  | append_singleton cs c ih =>
    rw [countsOf_snoc, ih, firstOccs_snoc]
    by_cases hc : c ∈ cs
    · rw [if_pos hc]
      have hcf : c ∈ firstOccs cs := (mem_firstOccs cs c).mpr hc
      rw [bump_map _ _ _ (nodup_firstOccs cs) hcf]
      refine List.map_congr_left ?_
      intro k hk
      rw [List.count_append]
      by_cases hkc : k = c
      · subst hkc
        simp [List.count_singleton]
      · simp [hkc, List.count_singleton', if_neg hkc]
    · rw [if_neg hc]
      have hcf : c ∉ firstOccs cs := fun h => hc ((mem_firstOccs cs c).mp h)
      rw [bump_of_not_mem]
      · rw [List.map_append]
        congr 1
        · refine List.map_congr_left ?_
          intro k hk
          have hkc : k ≠ c := fun hh =>
            hc (hh ▸ (mem_firstOccs cs k).mp hk)
          rw [List.count_append]
          simp [List.count_singleton', hkc, Ne.symm hkc]
        · have hzero : cs.count c = 0 := by
            rw [List.count_eq_zero]
            exact hc
          simp [List.count_append, hzero, List.count_singleton]
      · simpa [List.map_map, Function.comp] using hcf

theorem maxScan_map_spec (ks : List String) (f : String → Nat) (b : String) (bn : Nat) :
    (maxScan b bn (ks.map fun k => (k, f k)) = b ∧ ∀ k ∈ ks, f k ≤ bn) ∨
    (∃ ks₁ ks₂, ks = ks₁ ++ maxScan b bn (ks.map fun k => (k, f k)) :: ks₂ ∧
      bn < f (maxScan b bn (ks.map fun k => (k, f k))) ∧
      (∀ k ∈ ks₁, f k < f (maxScan b bn (ks.map fun k => (k, f k)))) ∧
      (∀ k ∈ ks₂, f k ≤ f (maxScan b bn (ks.map fun k => (k, f k))))) := by
  induction ks generalizing b bn with
  | nil => exact Or.inl ⟨rfl, by simp⟩
  | cons x t ih =>
    simp only [List.map_cons, maxScan]
    by_cases hx : bn < f x
    · rw [if_pos hx]
      rcases ih x (f x) with ⟨heq, hle⟩ | ⟨ks₁, ks₂, hsplit, hlt, h₁, h₂⟩
      · refine Or.inr ⟨[], t, by simp [heq], ?_, by simp, ?_⟩
        · rw [heq]; exact hx
        · intro k hk; rw [heq]; exact hle k hk
      · refine Or.inr ⟨x :: ks₁, ks₂, by rw [List.cons_append, ← hsplit], ?_, ?_, h₂⟩
        · omega
        · intro k hk
          rcases List.mem_cons.mp hk with rfl | hk'
          · exact hlt
          · exact h₁ k hk'
    · rw [if_neg hx]
      rcases ih b bn with ⟨heq, hle⟩ | ⟨ks₁, ks₂, hsplit, hlt, h₁, h₂⟩
      · refine Or.inl ⟨heq, ?_⟩
        intro k hk
        rcases List.mem_cons.mp hk with rfl | hk'
        · omega
        · exact hle k hk'
      · refine Or.inr ⟨x :: ks₁, ks₂, by rw [List.cons_append, ← hsplit], hlt, ?_, h₂⟩
        intro k hk
        rcases List.mem_cons.mp hk with rfl | hk'
        · omega
        · exact h₁ k hk'

theorem winner_split (cs : List String) (hne : cs ≠ []) :
    ∃ ks₁ ks₂, firstOccs cs = ks₁ ++ selectWinner cs :: ks₂ ∧
      (∀ k ∈ ks₁, cs.count k < cs.count (selectWinner cs)) ∧
      (∀ k ∈ ks₂, cs.count k ≤ cs.count (selectWinner cs)) := by
  cases cs with
  | nil => exact absurd rfl hne
  | cons x t =>
    have hsw : selectWinner (x :: t) =
        maxScan x ((x :: t).count x)
          (((firstOccs t).filter (· ≠ x)).map fun k => (k, (x :: t).count k)) := by
      rw [selectWinner]
      rw [if_neg (by simp)]
      rw [countsOf_eq]
      rfl
    rcases maxScan_map_spec ((firstOccs t).filter (· ≠ x))
        (fun k => (x :: t).count k) x ((x :: t).count x) with
      ⟨heq, hle⟩ | ⟨ks₁, ks₂, hsplit, hlt, h₁, h₂⟩
    · refine ⟨[], (firstOccs t).filter (· ≠ x), ?_, by simp, ?_⟩
      · rw [hsw, heq]
        rfl
      · intro k hk
        rw [hsw, heq]
        exact hle k hk
    · refine ⟨x :: ks₁, ks₂, ?_, ?_, ?_⟩
      · show x :: (firstOccs t).filter (· ≠ x) = (x :: ks₁) ++ selectWinner (x :: t) :: ks₂
        rw [List.cons_append, hsw, ← hsplit]
      · intro k hk
        rw [hsw]
        rcases List.mem_cons.mp hk with rfl | hk'
        · exact hlt
        · exact h₁ k hk'
      · intro k hk
        rw [hsw]
        exact h₂ k hk

/-- C1 counterexample: with options `["a", "b"]` and a tied ballot list
`[b, a]`, the spec's rule (tie broken by the first-appearing option in the
vote's `options` list) picks `"a"`, but `Server.__finalize_vote` — whose
`max(vote_counts, key=vote_counts.get)` scans the counts dict in ballot
insertion order — announces `"b"` in its VOTE_RESULT. -/
theorem claim_C1_options_tiebreak_false :
    (finalize_vote stC1 "v").2.1 =
      [⟨"aX", .voteResult "v" "g" "top" "b"⟩] ∧
    specWinner ["a", "b"] ["b", "a"] = "a" ∧
    selectWinner ["b", "a"] = "b" ∧
    ("b" : String) ≠ "a" := by decide

/-- C1 amended: on the list of cast ballot choices (in recording order),
the winner `Server.__finalize_vote` computes attains the maximal ballot
count and, among the choices attaining that count, is the one whose first
ballot appears earliest in the ballot list — ties are broken by ballot
order, not by the vote's `options` order; with zero ballots the winner is
the sentinel `NO_WINNER` (`"No votes, no winner"`). -/
theorem claim_C1_winner (cs : List String) (hne : cs ≠ []) :
    selectWinner [] = NO_WINNER ∧
    selectWinner cs ∈ cs ∧
    (∀ c ∈ cs, cs.count c ≤ cs.count (selectWinner cs)) ∧
    (∀ c ∈ cs, cs.count c = cs.count (selectWinner cs) →
      cs.indexOf (selectWinner cs) ≤ cs.indexOf c) := by
  obtain ⟨ks₁, ks₂, hsplit, h₁, h₂⟩ := winner_split cs hne
  have hwmem : selectWinner cs ∈ firstOccs cs := by
    rw [hsplit]
    exact List.mem_append_right _ (List.mem_cons_self _ _)
  have hpw := firstOccs_pairwise_indexOf cs
  rw [hsplit] at hpw
  have hks₂ : ∀ b ∈ ks₂, cs.indexOf (selectWinner cs) < cs.indexOf b :=
    fun b hb => List.rel_of_pairwise_cons ((List.pairwise_append.mp hpw).2.1) hb
  refine ⟨rfl, (mem_firstOccs cs _).mp hwmem, ?_, ?_⟩
  · intro c hc
    have hcf : c ∈ firstOccs cs := (mem_firstOccs cs c).mpr hc
    rw [hsplit] at hcf
    rcases List.mem_append.mp hcf with hc₁ | hc₂
    · exact le_of_lt (h₁ c hc₁)
    · rcases List.mem_cons.mp hc₂ with rfl | hc₂'
      · exact le_refl _
      · exact h₂ c hc₂'
  · intro c hc hcnt
    have hcf : c ∈ firstOccs cs := (mem_firstOccs cs c).mpr hc
    rw [hsplit] at hcf
    rcases List.mem_append.mp hcf with hc₁ | hc₂
    · exact absurd hcnt (by have := h₁ c hc₁; omega)
    · rcases List.mem_cons.mp hc₂ with rfl | hc₂'
      · exact le_refl _
      · exact le_of_lt (hks₂ c hc₂')

/-- Witness for C1 amended at the ballot list `[b, a, b]`. -/
theorem claim_C1_winner_witness :
    selectWinner ["b", "a", "b"] ∈ (["b", "a", "b"] : List String) :=
  (claim_C1_winner ["b", "a", "b"] (by decide)).2.1

end VoteCast
